import Mathlib

/-!
Verification of the streaming agent loop in `src/chat/agents/base.py`
(`Agent.stream_run`, `Agent.execute_tool`, `Agent.messages_for_llm`,
`Agent.__init__`).

The Python code is shallowly embedded: the TypedDict message and event
shapes become inductive types / structures, the mutable message history
becomes explicit state passing, and the generator's externally observable
behaviour (events yielded, LLM requests issued, messages persisted) is
collected into a single ordered action trace.  Library behaviour that the
code calls into (`json.loads`, per-tool pydantic constructors and tool
bodies, the litellm transport) is abstracted as explicit parameters: a
parse function, a per-tool `run` outcome, and a scripted transport.
-/

namespace AgentBase

/-- A JSON-ish value, the payload type for parsed tool arguments and for the
structured `data` dictionaries carried by tool messages (`dict[str, Any]`). -/
inductive Value where
  | vNull : Value
  | vStr (s : String) : Value
  | vDict (fields : List (String × Value)) : Value

/-- A `dict[str, Any]` as used for the `data` field. -/
abbrev Dict := List (String × Value)

/-- First-match lookup in a JSON object (Python dicts have unique keys). -/
def lookupField (fields : Dict) (k : String) : Option Value :=
  (fields.find? (fun p => p.1 == k)).map (fun p => p.2)

/-- `FunctionCall` TypedDict: function call details within a tool call. -/
structure FunctionCall where
  name : String
  arguments : String
deriving DecidableEq

/-- `ToolCall` TypedDict: a tool call made by the assistant.  The constant
`type="function"` discriminator is omitted. -/
structure ToolCall where
  id : Option String
  function : FunctionCall
deriving DecidableEq

/-- The messages of the conversation history (the `Message` union of
TypedDicts, discriminated by `role`).  Optional TypedDict keys become
`Option` fields; a `tool` message's `data` key is present iff the field is
`some`. -/
inductive Message where
  | system (content : String) : Message
  | user (content : String) : Message
  | assistant (content : String) (tool_calls : Option (List ToolCall)) : Message
  | tool (tool_call_id : String) (name : String) (content : String)
      (data : Option Dict) : Message

/-- The `StreamEvent` union yielded by `stream_run`. -/
inductive StreamEvent where
  | content_delta (content : String) : StreamEvent
  | tool_call (id : String) (name : String) (args : Value) : StreamEvent
  | tool_response (id : String) (name : String) (data : Option Dict) : StreamEvent
  | done : StreamEvent
  | error (e : String) : StreamEvent

/-- Output from a tool execution (`ToolOutput`, a pydantic model with
`response : str` and `data : dict | None = None`). -/
structure ToolOutput where
  response : String
  data : Option Dict := none

/-- The possible return values of a tool body
(`ToolOutput | str | None`, or any other value). -/
inductive ToolReturn where
  | retNone : ToolReturn
  | retStr (s : String) : ToolReturn
  | retOutput (o : ToolOutput) : ToolReturn
  | retOther (v : Value) : ToolReturn

/-- Outcome of `tool_class(**tool_args)` followed by `tool_instance(self)`:
either some exception escaped (constructor validation or the tool body), or
a value was returned.  Abstracted per tool since tool classes are
user-defined subclasses of `Tool`. -/
inductive ToolRunOutcome where
  | raises (e : String) : ToolRunOutcome
  | returns (r : ToolReturn) : ToolRunOutcome

/-- A registered tool class: its `__name__`, `__doc__`, json schema of its
fields, and its (abstracted) construction-plus-call behaviour. -/
structure ToolSpec where
  name : String
  doc : String
  parameters : Value
  run : Value → ToolRunOutcome

/-- The dict built by `Tool.get_schema` (constant `"type": "function"`
wrapper omitted). -/
structure ToolSchema where
  name : String
  description : String
  parameters : Value

/-- `Tool.get_schema`: export the tool schema for LLM function calling. -/
def get_schema (t : ToolSpec) : ToolSchema :=
  { name := t.name, description := t.doc, parameters := t.parameters }

/-- External environment: `json.loads` on a string either returns a value or
raises `json.JSONDecodeError` carrying a message. -/
structure Env where
  parseJson : String → Except String Value

/-- Agent state relevant to the loop.  `toolsOverride` models a `"tools"`
key smuggled in through `**completion_args` (it shadows the base key in the
`call_args` dict merge); it is `none` in ordinary use. -/
structure Agent where
  model : String
  tool_classes : List ToolSpec
  messages : List Message
  max_steps : Nat
  toolsOverride : Option (Option (List ToolSchema)) := none

/-- `self.tools = {tool.__name__: tool for tool in tool_classes}` followed by
`self.tools.get(name)`: in a dict comprehension a later duplicate key wins. -/
def Agent.toolsLookup (a : Agent) (n : String) : Option ToolSpec :=
  (a.tool_classes.filter (fun t => t.name == n)).getLast?

/-- `self.tool_schemas = [tool.get_schema() for tool in tool_classes] or None`:
an empty schema list is falsy, so it collapses to `None`. -/
def Agent.tool_schemas (a : Agent) : Option (List ToolSchema) :=
  match a.tool_classes with
  | [] => none
  | l => some (l.map get_schema)

/-- `Agent.messages_for_llm`: return messages sanitized for LLM API calls,
stripping the `data` key from any `tool` message that has one and copying
every other message unchanged. -/
def messages_for_llm (msgs : List Message) : List Message :=
  msgs.map fun msg =>
    match msg with
    | .tool id name content (some _) => .tool id name content none
    | m => m

/- ===========================================================================
Tool-call fragment accumulation (`stream_run`, lines 410-436)
=========================================================================== -/

/-- A streamed tool-call fragment (`delta.tool_calls[k]`): positional index,
optional id, optional function delta with optional name/arguments pieces. -/
structure FunctionDelta where
  name : Option String
  arguments : Option String
deriving DecidableEq

/-- One element of `delta.tool_calls`. -/
structure ToolCallDelta where
  index : Nat
  id : Option String
  function : Option FunctionDelta
deriving DecidableEq

/-- Python truthiness of an `Optional[str]`: `None` and `""` are falsy. -/
def truthy (o : Option String) : Bool :=
  !(o.getD "" == "")

/-- The empty slot allocated by the while-loop:
`{id: None, type: "function", function: {name: "", arguments: ""}}`. -/
def emptyToolCall : ToolCall :=
  { id := none, function := { name := "", arguments := "" } }

/-- `while tc.index >= len(tool_calls): tool_calls.append(empty)`. -/
def padTo (tool_calls : List ToolCall) (index : Nat) : List ToolCall :=
  tool_calls ++ List.replicate (index + 1 - tool_calls.length) emptyToolCall

/-- Indexing used in the statements below: out-of-range reads give the empty
slot (the code never reads out of range after padding). -/
def nthTC : List ToolCall → Nat → ToolCall
  | [], _ => emptyToolCall
  | t :: _, 0 => t
  | _ :: ts, i + 1 => nthTC ts i

/-- The per-slot update of lines 426-436: `id` overwritten when truthy,
`function.name` overwritten when truthy, `function.arguments` appended to
when truthy; the name/arguments updates are guarded by `if tc.function:`. -/
def mergeInto (cur0 : ToolCall) (tc : ToolCallDelta) : ToolCall :=
  let cur := if truthy tc.id then { cur0 with id := tc.id } else cur0
  match tc.function with
  | none => cur
  | some f =>
    let cur :=
      if truthy f.name then
        { cur with function := { cur.function with name := f.name.getD "" } }
      else cur
    if truthy f.arguments then
      { cur with function :=
          { cur.function with
            arguments := cur.function.arguments ++ f.arguments.getD "" } }
    else cur

/-- Merging one fragment into the growable array (lines 413-436): pad with
empty slots up to the fragment's index, then update the slot there. -/
def applyDelta (tool_calls : List ToolCall) (tc : ToolCallDelta) : List ToolCall :=
  let padded := padTo tool_calls tc.index
  padded.set tc.index (mergeInto (nthTC padded tc.index) tc)

/-- Accumulate a whole in-order stream of fragments starting from the empty
array (`tool_calls: list[ToolCall] = []`). -/
def accumulateDeltas (ds : List ToolCallDelta) : List ToolCall :=
  ds.foldl applyDelta []

/- ===========================================================================
`Agent.execute_tool` (lines 300-356)
=========================================================================== -/

/-- Validation performed by `ToolOutput(**result)` when a tool returns some
value that is neither `None`, a `str`, nor a `ToolOutput`: the `**` splat
needs a mapping, pydantic then requires `response` to be a string and `data`
(if given) to be a dict or `None`; extra keys are ignored. -/
def toolOutputOfValue : Value → Except String ToolOutput
  | .vDict fields =>
    match lookupField fields "response" with
    | some (.vStr s) =>
      match lookupField fields "data" with
      | none => .ok { response := s, data := none }
      | some .vNull => .ok { response := s, data := none }
      | some (.vDict d) => .ok { response := s, data := some d }
      | some _ => .error "validation error for ToolOutput: data"
    | _ => .error "validation error for ToolOutput: response"
  | _ => .error "argument of type ** must be a mapping"

/-- Normalization of a tool body's return value to a `ToolOutput`
(lines 323-331); errors are the exceptions the enclosing `except` catches. -/
def normalizeResult : ToolReturn → Except String ToolOutput
  | .retNone => .ok { response := "Success" }
  | .retStr s => .ok { response := s }
  | .retOutput o => .ok o
  | .retOther v => toolOutputOfValue v

/-- The `try:` block of `execute_tool`: resolve the tool name, parse the
argument JSON, construct and call the tool, normalize the result.  The
`.error` cases are the exceptions reaching the `except Exception` handler. -/
def execute_tool_try (env : Env) (a : Agent) (tool_call : ToolCall) :
    Except String ToolOutput :=
  match a.toolsLookup tool_call.function.name with
  | none => .error ("Unknown tool: " ++ tool_call.function.name)
  | some tool_class =>
    match env.parseJson tool_call.function.arguments with
    | .error e => .error e
    | .ok tool_args =>
      match tool_class.run tool_args with
      | .raises e => .error e
      | .returns result => normalizeResult result

/-- `Agent.execute_tool`: execute a single tool call, returning the tool
message to store and the `tool_response` event to stream.  Every failure in
the `try:` block is converted to a normal tool message whose content is
`"Error: " + str(e)`; the `data` key is present only when `output.data` is
not `None`. -/
def execute_tool (env : Env) (a : Agent) (tool_call : ToolCall) :
    Message × StreamEvent :=
  let tool_name := tool_call.function.name
  let tool_id := tool_call.id.getD ""
  let output : ToolOutput :=
    match execute_tool_try env a tool_call with
    | .ok o => o
    | .error e => { response := "Error: " ++ e, data := none }
  let tool_msg : Message := .tool tool_id tool_name output.response output.data
  let response_event : StreamEvent := .tool_response tool_id tool_name output.data
  (tool_msg, response_event)

/- ===========================================================================
`Agent.stream_run` (lines 358-484)
=========================================================================== -/

/-- One streamed chunk's delta: `delta.content` (an optional string) and
`delta.tool_calls` (`None` becomes the empty fragment list). -/
structure Chunk where
  content : Option String
  tool_calls : List ToolCallDelta

/-- One scripted model turn of the transport: the chunks the iterator yields
and, optionally, an exception it raises after them (a mid-stream transport
failure or malformed response shape). -/
structure ModelTurn where
  chunks : List Chunk
  fail : Option String

/-- The `call_args` dict passed to `litellm.completion` (the four base keys;
extra completion args other than a `"tools"` override do not affect any
claim and are not modelled). -/
structure Request where
  model : String
  messages : List Message
  tools : Option (List ToolSchema)
  stream : Bool

/-- Build the completion request from the current agent state
(lines 384-391); `**completion_args` may shadow the `"tools"` key. -/
def mkRequest (a : Agent) : Request :=
  { model := a.model
    messages := messages_for_llm a.messages
    tools := a.toolsOverride.getD a.tool_schemas
    stream := true }

/-- The externally observable actions of the generator, in order: LLM
requests issued, events yielded, messages appended to the history
(`add_message`). -/
inductive Action where
  | callLLM (req : Request) : Action
  | emit (ev : StreamEvent) : Action
  | persist (msg : Message) : Action

/-- Running accumulator of the chunk loop: `full_content` and `tool_calls`. -/
structure ChunkAccum where
  full_content : List String
  tool_calls : List ToolCall

/-- Process one chunk (lines 397-436): a truthy `delta.content` is both
appended to `full_content` and emitted as a `content_delta` event; every
fragment in `delta.tool_calls` is merged into the growable array. -/
def processChunk (st : ChunkAccum) (ch : Chunk) : ChunkAccum × List Action :=
  let acts : List Action :=
    if truthy ch.content then [.emit (.content_delta (ch.content.getD ""))] else []
  let fc :=
    if truthy ch.content then st.full_content ++ [ch.content.getD ""]
    else st.full_content
  (⟨fc, ch.tool_calls.foldl applyDelta st.tool_calls⟩, acts)

/-- Process a whole turn's chunk stream from the empty accumulator. -/
def processChunks (chunks : List Chunk) : ChunkAccum × List Action :=
  chunks.foldl
    (fun p ch =>
      let q := processChunk p.1 ch
      (q.1, p.2 ++ q.2))
    (⟨[], []⟩, [])

/-- How one loop iteration ended: fell through to the next iteration, hit
`break` (no tool calls), or an exception escaped to the outer `except`. -/
inductive StepExit where
  | stepNext : StepExit
  | stepBroke : StepExit
  | stepRaised (e : String) : StepExit

/-- `json.loads(function.get("arguments", "{}"))` with
`except json.JSONDecodeError: args_dict = {}` (lines 452-457), then the
`tool_call` event (lines 459-464). -/
def toolCallEvent (env : Env) (tool_call : ToolCall) : StreamEvent :=
  let args_dict :=
    match env.parseJson tool_call.function.arguments with
    | .ok v => v
    | .error _ => Value.vDict []
  .tool_call (tool_call.id.getD "") tool_call.function.name args_dict

/-- The actions of one tool call inside a turn (lines 449-474): emit the
`tool_call` event, execute the tool, persist the tool message, emit the
`tool_response` event. -/
def runToolCall (env : Env) (a : Agent) (tool_call : ToolCall) : List Action :=
  let r := execute_tool env a tool_call
  [.emit (toolCallEvent env tool_call), .persist r.1, .emit r.2]

/-- One iteration of `for _ in range(self.max_steps)` (lines 382-476):
issue the request, stream the scripted turn, persist the assistant message
(with a `tool_calls` key iff any were accumulated), then either run the
tool calls or `break`.  A scripted failure escapes after the content events
already yielded, before anything is persisted. -/
def runStep (env : Env) (a : Agent) (turn : ModelTurn) : List Action × StepExit :=
  let req := mkRequest a
  let st := (processChunks turn.chunks).1
  let contentActs := (processChunks turn.chunks).2
  match turn.fail with
  | some e => (Action.callLLM req :: contentActs, .stepRaised e)
  | none =>
    let assistant_msg : Message :=
      .assistant (String.join st.full_content)
        (if st.tool_calls.isEmpty then none else some st.tool_calls)
    let acts := Action.callLLM req :: contentActs ++ [.persist assistant_msg]
    if st.tool_calls.isEmpty then (acts, .stepBroke)
    else (acts ++ st.tool_calls.flatMap (runToolCall env a), .stepNext)

/-- The messages appended by a list of actions, in order. -/
def persistedMsgs (acts : List Action) : List Message :=
  acts.filterMap fun act =>
    match act with
    | .persist m => some m
    | _ => none

/-- The events yielded by a list of actions, in order. -/
def emittedEvents (acts : List Action) : List StreamEvent :=
  acts.filterMap fun act =>
    match act with
    | .emit e => some e
    | _ => none

/-- The loop of `stream_run` (lines 381-484), driven by the remaining fuel of
`range(self.max_steps)` and the index of the next scripted turn.  Falling
out of the loop, or leaving it via `break`, is followed by the single
`yield done_event`; an escaped exception is caught by the outer handler and
converted to a single terminal `error` event. -/
def loopAux (env : Env) (transport : Nat → ModelTurn) :
    Nat → Nat → Agent → List Action × Agent
  | 0, _, a => ([.emit .done], a)
  | fuel + 1, i, a =>
    let r := runStep env a (transport i)
    let a' := { a with messages := a.messages ++ persistedMsgs r.1 }
    match r.2 with
    | .stepRaised e => (r.1 ++ [.emit (.error e)], a')
    | .stepBroke => (r.1 ++ [.emit .done], a')
    | .stepNext =>
      let rest := loopAux env transport fuel (i + 1) a'
      (r.1 ++ rest.1, rest.2)

/-- `Agent.stream_run` with a list of initial messages: append them to the
history (lines 372-379), then run the loop. -/
def stream_run (env : Env) (transport : Nat → ModelTurn) (a : Agent)
    (initial : List Message) : List Action × Agent :=
  let a0 := { a with messages := a.messages ++ initial }
  let r := loopAux env transport a.max_steps 0 a0
  (initial.map .persist ++ r.1, r.2)

/- Small projections used in claim statements. -/

/-- Is the event terminal (`done` or `error`)? -/
def isTerminal : StreamEvent → Bool
  | .done => true
  | .error _ => true
  | _ => false

/-- Is the event a `tool_call` announcement? -/
def isToolCallEv : StreamEvent → Bool
  | .tool_call _ _ _ => true
  | _ => false

/-- Is the event a `tool_response`? -/
def isToolResponseEv : StreamEvent → Bool
  | .tool_response _ _ _ => true
  | _ => false

/-- Is the event a `done`? -/
def isDoneEv : StreamEvent → Bool
  | .done => true
  | _ => false

/-- Is the event an `error`? -/
def isErrorEv : StreamEvent → Bool
  | .error _ => true
  | _ => false

/-- Is the action an LLM request? -/
def isCallLLM : Action → Bool
  | .callLLM _ => true
  | _ => false

/-- Is the message a `tool` message? -/
def isToolMsg : Message → Bool
  | .tool _ _ _ _ => true
  | _ => false

/-- The `content` of a `tool` message (unused default elsewhere). -/
def toolMsgContent : Message → String
  | .tool _ _ c _ => c
  | _ => ""

/-- The `tool_call_id` of a `tool` message (unused default elsewhere). -/
def toolMsgId : Message → String
  | .tool i _ _ _ => i
  | _ => ""

/-- The `data` of a `tool` message (unused default elsewhere). -/
def toolMsgData : Message → Option Dict
  | .tool _ _ _ d => d
  | _ => none

/-- All tool-call ids carried by assistant messages of a history, in order,
with multiplicity. -/
def assistantCallIds (h : List Message) : List (Option String) :=
  h.flatMap fun m =>
    match m with
    | .assistant _ (some tcs) => tcs.map (fun tc => tc.id)
    | _ => []

/-- Every `tool` message of the history has at least one matching tool-call
id among the assistant messages preceding it. -/
def PrefixMatched (h : List Message) : Prop :=
  ∀ (h1 h2 : List Message) (id name content : String) (d : Option Dict),
    h = h1 ++ .tool id name content d :: h2 →
    0 < (assistantCallIds h1).count (some id)

/- ===========================================================================
Specification-side functions used to state the accumulation claim: a direct
per-index description of what the reassembled array should contain.
=========================================================================== -/

/-- The `arguments` of the reassembled slot at index `i` (empty out of
range). -/
def argAt (tcs : List ToolCall) (i : Nat) : String :=
  (nthTC tcs i).function.arguments

/-- The `id` of the reassembled slot at index `i` (`none` out of range). -/
def idAt (tcs : List ToolCall) (i : Nat) : Option String :=
  (nthTC tcs i).id

/-- The `name` of the reassembled slot at index `i` (empty out of range). -/
def nameAt (tcs : List ToolCall) (i : Nat) : String :=
  (nthTC tcs i).function.name

/-- The arguments text a fragment contributes (absent pieces contribute
nothing). -/
def argFragOf (d : ToolCallDelta) : String :=
  match d.function with
  | none => ""
  | some f => f.arguments.getD ""

/-- The id a fragment contributes, if any: a truthy (non-empty) id. -/
def idFragOf (d : ToolCallDelta) : Option String :=
  if truthy d.id then d.id else none

/-- The name a fragment contributes, if any: a truthy (non-empty) name. -/
def nameFragOf (d : ToolCallDelta) : Option String :=
  match d.function with
  | none => none
  | some f => if truthy f.name then some (f.name.getD "") else none

/-- Concatenation, in stream order, of the argument chunks addressed to
index `i`. -/
def chunksConcatAt (ds : List ToolCallDelta) (i : Nat) : String :=
  ds.foldl (fun s d => if d.index == i then s ++ argFragOf d else s) ""

/-- The last contribution (by `g`) among the fragments addressed to `i`. -/
def lastFragAt (g : ToolCallDelta → Option String) (ds : List ToolCallDelta)
    (i : Nat) : Option String :=
  ds.foldl
    (fun o d =>
      if d.index == i then
        match g d with
        | some v => some v
        | none => o
      else o)
    none

/-- The last truthy id addressed to index `i`, if any. -/
def lastIdAt (ds : List ToolCallDelta) (i : Nat) : Option String :=
  lastFragAt idFragOf ds i

/-- The last truthy name addressed to index `i`, if any. -/
def lastNameAt (ds : List ToolCallDelta) (i : Nat) : Option String :=
  lastFragAt nameFragOf ds i

/-- The number of slots the stream allocates: one past the largest index. -/
def slotsLen (ds : List ToolCallDelta) : Nat :=
  ds.foldl (fun n d => max n (d.index + 1)) 0

/-- A fragment carrying only an arguments chunk for index `i`. -/
def argChunkDelta (i : Nat) (s : String) : ToolCallDelta :=
  { index := i, id := none, function := some { name := none, arguments := some s } }

/- ===========================================================================
Concrete fixtures: a few small environments, tools, agents and scripted
turns used to evaluate the definitions on closed inputs.
=========================================================================== -/

/-- A parse function that rejects every arguments string (as `json.loads`
does on the empty string and other malformed input). -/
def envParseFail : Env :=
  { parseJson := fun _ => .error "Expecting value: line 1 column 1 (char 0)" }

/-- A parse function that accepts every arguments string as the empty
object. -/
def envParseOk : Env :=
  { parseJson := fun _ => .ok (Value.vDict []) }

/-- A tool whose body returns a bare string. -/
def toolEcho : ToolSpec :=
  { name := "Echo", doc := "echo", parameters := Value.vNull,
    run := fun _ => .returns (.retStr "hi") }

/-- A tool whose body returns `None`. -/
def toolQuiet : ToolSpec :=
  { name := "Quiet", doc := "quiet", parameters := Value.vNull,
    run := fun _ => .returns .retNone }

/-- A tool whose body raises. -/
def toolBoom : ToolSpec :=
  { name := "Boom", doc := "boom", parameters := Value.vNull,
    run := fun _ => .raises "kaboom" }

/-- A tool whose body returns a plain dict with a `response` key. -/
def toolDictRet : ToolSpec :=
  { name := "DictRet", doc := "dict", parameters := Value.vNull,
    run := fun _ => .returns (.retOther (.vDict [("response", .vStr "r")])) }

/-- An agent with no registered tools and a budget of one step. -/
def agentNoTools : Agent :=
  { model := "m", tool_classes := [], messages := [], max_steps := 1 }

/-- An agent with several registered tools. -/
def agentTools : Agent :=
  { model := "m", tool_classes := [toolEcho, toolQuiet, toolBoom, toolDictRet],
    messages := [], max_steps := 2 }

/-- A tool call naming no registered tool. -/
def tcUnknown : ToolCall :=
  { id := some "i1", function := { name := "Nope", arguments := "" } }

/-- A tool call for `Echo`. -/
def tcEcho : ToolCall :=
  { id := some "i2", function := { name := "Echo", arguments := "1" } }

/-- A turn streaming one content chunk and one complete tool call. -/
def turnOneCall : ModelTurn :=
  { chunks :=
      [ { content := some "Hello",
          tool_calls :=
            [ { index := 0, id := some "i1",
                function := some { name := some "Nope", arguments := some "1" } } ] } ],
    fail := none }

/-- A turn streaming two complete tool calls with distinct ids. -/
def turnTwoCalls : ModelTurn :=
  { chunks :=
      [ { content := none,
          tool_calls :=
            [ { index := 0, id := some "x",
                function := some { name := some "Echo", arguments := some "1" } },
              { index := 1, id := some "y",
                function := some { name := some "Nope", arguments := some "2" } } ] } ],
    fail := none }

/-- A turn streaming two complete tool calls sharing one id. -/
def turnDupIds : ModelTurn :=
  { chunks :=
      [ { content := none,
          tool_calls :=
            [ { index := 0, id := some "x",
                function := some { name := some "Echo", arguments := some "1" } },
              { index := 1, id := some "x",
                function := some { name := some "Nope", arguments := some "2" } } ] } ],
    fail := none }

/-- A turn with content only, no tool calls. -/
def turnNoCalls : ModelTurn :=
  { chunks := [{ content := some "Hi", tool_calls := [] }], fail := none }

/-- A turn on which the transport raises before yielding any chunk. -/
def turnFail : ModelTurn :=
  { chunks := [], fail := some "boom" }

/-- A transport scripting `turnOneCall` forever. -/
def tpOneCall : Nat → ModelTurn := fun _ => turnOneCall

/-- A transport scripting `turnTwoCalls` forever. -/
def tpTwoCalls : Nat → ModelTurn := fun _ => turnTwoCalls

/-- A transport scripting `turnDupIds` forever. -/
def tpDupIds : Nat → ModelTurn := fun _ => turnDupIds

/-- A transport scripting `turnNoCalls` forever. -/
def tpNoCalls : Nat → ModelTurn := fun _ => turnNoCalls

/-- A transport scripting `turnFail` forever. -/
def tpFail : Nat → ModelTurn := fun _ => turnFail

/- ===========================================================================
Lemmas about the fragment accumulator
=========================================================================== -/

theorem getD_of_not_truthy (o : Option String) (h : truthy o = false) :
    o.getD "" = "" := by
  unfold truthy at h
  simpa using h

theorem truthy_isSome (o : Option String) (h : truthy o = true) :
    ∃ s, o = some s := by
  cases o with
  | none => simp [truthy] at h
  | some s => exact ⟨s, rfl⟩

theorem nthTC_replicate (k i : Nat) :
    nthTC (List.replicate k emptyToolCall) i = emptyToolCall := by
  induction k generalizing i with
  | zero => cases i <;> rfl
  | succ k ih =>
    cases i with
    | zero => rfl
    | succ i =>
      rw [List.replicate_succ]
      exact ih i

theorem nthTC_append_replicate (l : List ToolCall) (k i : Nat) :
    nthTC (l ++ List.replicate k emptyToolCall) i = nthTC l i := by
  induction l generalizing i with
  | nil => cases i <;> simp [nthTC, nthTC_replicate]
  | cons x xs ih =>
    cases i with
    | zero => rfl
    | succ i => exact ih i

theorem nthTC_padTo (l : List ToolCall) (n i : Nat) :
    nthTC (padTo l n) i = nthTC l i :=
  nthTC_append_replicate l _ i

theorem length_padTo (l : List ToolCall) (n : Nat) :
    (padTo l n).length = max l.length (n + 1) := by
  simp [padTo]
  omega

theorem nthTC_set_eq (l : List ToolCall) (i : Nat) (x : ToolCall)
    (h : i < l.length) : nthTC (l.set i x) i = x := by
  induction l generalizing i with
  | nil => simp at h
  | cons y ys ih =>
    cases i with
    | zero => rfl
    | succ i => exact ih i (by simp at h; omega)

theorem nthTC_set_ne (l : List ToolCall) (i j : Nat) (x : ToolCall)
    (h : i ≠ j) : nthTC (l.set i x) j = nthTC l j := by
  induction l generalizing i j with
  | nil => simp [List.set]
  | cons y ys ih =>
    cases i with
    | zero =>
      cases j with
      | zero => exact absurd rfl h
      | succ j => rfl
    | succ i =>
      cases j with
      | zero => rfl
      | succ j => exact ih i j (by omega)

theorem match_some_of_truthy (o x : Option String) :
    truthy o = true →
    (match o with
     | some v => some v
     | none => x) = o := by
  cases o with
  | none => intro h; simp [truthy] at h
  | some s => intro _; rfl

theorem mergeInto_id (cur : ToolCall) (d : ToolCallDelta) :
    (mergeInto cur d).id =
      match idFragOf d with
      | some v => some v
      | none => cur.id := by
  cases hf : d.function with
  | none =>
    cases h : truthy d.id <;>
      simp [mergeInto, idFragOf, hf, h] <;>
        exact (match_some_of_truthy _ _ h).symm
  | some f =>
    cases h : truthy d.id <;> cases hn : truthy f.name <;>
      cases ha : truthy f.arguments <;>
        simp [mergeInto, idFragOf, hf, h, hn, ha] <;>
          exact (match_some_of_truthy _ _ h).symm

theorem mergeInto_arguments (cur : ToolCall) (d : ToolCallDelta) :
    (mergeInto cur d).function.arguments =
      cur.function.arguments ++ argFragOf d := by
  cases hf : d.function with
  | none =>
    cases h : truthy d.id <;>
      simp [mergeInto, argFragOf, hf, h, String.append_empty]
  | some f =>
    cases h : truthy d.id <;> cases hn : truthy f.name <;>
      cases ha : truthy f.arguments <;>
        simp [mergeInto, argFragOf, hf, h, hn, ha, String.append_empty,
          getD_of_not_truthy]

theorem mergeInto_name (cur : ToolCall) (d : ToolCallDelta) :
    (mergeInto cur d).function.name =
      match nameFragOf d with
      | some v => v
      | none => cur.function.name := by
  cases hf : d.function with
  | none =>
    cases h : truthy d.id <;>
      simp [mergeInto, nameFragOf, hf, h]
  | some f =>
    cases h : truthy d.id <;> cases hn : truthy f.name <;>
      cases ha : truthy f.arguments <;>
        simp [mergeInto, nameFragOf, hf, h, hn, ha]

theorem applyDelta_def (l : List ToolCall) (d : ToolCallDelta) :
    applyDelta l d =
      (padTo l d.index).set d.index
        (mergeInto (nthTC (padTo l d.index) d.index) d) := rfl

theorem index_lt_length_padTo (l : List ToolCall) (d : ToolCallDelta) :
    d.index < (padTo l d.index).length := by
  rw [length_padTo]
  exact Nat.lt_of_lt_of_le (Nat.lt_succ_self _) (Nat.le_max_right _ _)

theorem nthTC_applyDelta_eq (l : List ToolCall) (d : ToolCallDelta) :
    nthTC (applyDelta l d) d.index = mergeInto (nthTC l d.index) d := by
  rw [applyDelta_def, nthTC_set_eq _ _ _ (index_lt_length_padTo l d), nthTC_padTo]

theorem nthTC_applyDelta_ne (l : List ToolCall) (d : ToolCallDelta) (j : Nat)
    (h : d.index ≠ j) : nthTC (applyDelta l d) j = nthTC l j := by
  rw [applyDelta_def, nthTC_set_ne _ _ _ _ h, nthTC_padTo]

theorem length_applyDelta (l : List ToolCall) (d : ToolCallDelta) :
    (applyDelta l d).length = max l.length (d.index + 1) := by
  rw [applyDelta_def, List.length_set, length_padTo]

theorem argAt_applyDelta (l : List ToolCall) (d : ToolCallDelta) (i : Nat) :
    argAt (applyDelta l d) i =
      if d.index == i then argAt l i ++ argFragOf d else argAt l i := by
  by_cases h : d.index = i
  · subst h
    simp [argAt, nthTC_applyDelta_eq, mergeInto_arguments]
  · simp [argAt, nthTC_applyDelta_ne l d i h, h]

theorem idAt_applyDelta (l : List ToolCall) (d : ToolCallDelta) (i : Nat) :
    idAt (applyDelta l d) i =
      if d.index == i then
        (match idFragOf d with
         | some v => some v
         | none => idAt l i)
      else idAt l i := by
  by_cases h : d.index = i
  · subst h
    simp [idAt, nthTC_applyDelta_eq, mergeInto_id]
  · simp [idAt, nthTC_applyDelta_ne l d i h, h]

theorem nameAt_applyDelta (l : List ToolCall) (d : ToolCallDelta) (i : Nat) :
    nameAt (applyDelta l d) i =
      if d.index == i then
        (match nameFragOf d with
         | some v => v
         | none => nameAt l i)
      else nameAt l i := by
  by_cases h : d.index = i
  · subst h
    simp [nameAt, nthTC_applyDelta_eq, mergeInto_name]
  · simp [nameAt, nthTC_applyDelta_ne l d i h, h]

theorem chunksConcatAt_def (ds : List ToolCallDelta) (i : Nat) :
    chunksConcatAt ds i
      = ds.foldl (fun s d => if d.index == i then s ++ argFragOf d else s) "" :=
  rfl

theorem strfold_shift (i : Nat) (ds : List ToolCallDelta) :
    ∀ (s : String),
      ds.foldl (fun t d => if d.index == i then t ++ argFragOf d else t) s
        = s ++ chunksConcatAt ds i := by
  induction ds with
  | nil => intro s; simp [chunksConcatAt, String.append_empty]
  | cons d ds ih =>
    intro s
    rw [List.foldl_cons, ih]
    nth_rewrite 2 [chunksConcatAt_def]
    rw [List.foldl_cons, ih]
    cases h : d.index == i <;>
      simp [h, String.empty_append, String.append_assoc]

theorem chunksConcatAt_cons (d : ToolCallDelta) (ds : List ToolCallDelta) (i : Nat) :
    chunksConcatAt (d :: ds) i =
      (if d.index == i then argFragOf d else "") ++ chunksConcatAt ds i := by
  rw [chunksConcatAt_def, List.foldl_cons, strfold_shift]
  cases h : d.index == i <;> simp [h, String.empty_append]

theorem argAt_foldl (ds : List ToolCallDelta) :
    ∀ (l : List ToolCall) (i : Nat),
      argAt (ds.foldl applyDelta l) i = argAt l i ++ chunksConcatAt ds i := by
  induction ds with
  | nil => intro l i; simp [chunksConcatAt, String.append_empty]
  | cons d ds ih =>
    intro l i
    rw [List.foldl_cons, ih, argAt_applyDelta, chunksConcatAt_cons]
    cases h : d.index == i <;>
      simp [h, String.append_assoc, String.empty_append]

theorem lastFragAt_def (g : ToolCallDelta → Option String)
    (ds : List ToolCallDelta) (i : Nat) :
    lastFragAt g ds i
      = ds.foldl
          (fun o d =>
            if d.index == i then
              match g d with
              | some v => some v
              | none => o
            else o)
          none := rfl

theorem lastFragAt_shift (g : ToolCallDelta → Option String) (i : Nat)
    (ds : List ToolCallDelta) :
    ∀ (o : Option String),
      ds.foldl
        (fun p d =>
          if d.index == i then
            match g d with
            | some v => some v
            | none => p
          else p)
        o
      = match lastFragAt g ds i with
        | some v => some v
        | none => o := by
  induction ds with
  | nil => intro o; simp [lastFragAt]
  | cons d ds ih =>
    intro o
    rw [List.foldl_cons, ih]
    nth_rewrite 2 [lastFragAt_def]
    rw [List.foldl_cons, ih]
    cases hF : lastFragAt g ds i with
    | some v => simp
    | none =>
      cases h : d.index == i <;> cases hg : g d <;> simp [h, hg]

theorem lastFragAt_cons (g : ToolCallDelta → Option String) (d : ToolCallDelta)
    (ds : List ToolCallDelta) (i : Nat) :
    lastFragAt g (d :: ds) i =
      match lastFragAt g ds i with
      | some v => some v
      | none => if d.index == i then g d else none := by
  rw [lastFragAt_def, List.foldl_cons, lastFragAt_shift]
  cases hF : lastFragAt g ds i with
  | some v => simp
  | none =>
    cases h : d.index == i <;> cases hg : g d <;> simp [h, hg]

theorem idAt_foldl (ds : List ToolCallDelta) :
    ∀ (l : List ToolCall) (i : Nat),
      idAt (ds.foldl applyDelta l) i =
        match lastIdAt ds i with
        | some v => some v
        | none => idAt l i := by
  induction ds with
  | nil => intro l i; simp [lastIdAt, lastFragAt]
  | cons d ds ih =>
    intro l i
    rw [List.foldl_cons, ih, idAt_applyDelta]
    rw [show lastIdAt (d :: ds) i =
        match lastIdAt ds i with
        | some v => some v
        | none => if d.index == i then idFragOf d else none
      from lastFragAt_cons idFragOf d ds i]
    cases hF : lastIdAt ds i with
    | some v => simp
    | none =>
      cases h : d.index == i <;> cases hg : idFragOf d <;> simp [h, hg]

theorem nameAt_foldl (ds : List ToolCallDelta) :
    ∀ (l : List ToolCall) (i : Nat),
      nameAt (ds.foldl applyDelta l) i =
        match lastNameAt ds i with
        | some v => v
        | none => nameAt l i := by
  induction ds with
  | nil => intro l i; simp [lastNameAt, lastFragAt]
  | cons d ds ih =>
    intro l i
    rw [List.foldl_cons, ih, nameAt_applyDelta]
    rw [show lastNameAt (d :: ds) i =
        match lastNameAt ds i with
        | some v => some v
        | none => if d.index == i then nameFragOf d else none
      from lastFragAt_cons nameFragOf d ds i]
    cases hF : lastNameAt ds i with
    | some v => simp
    | none =>
      cases h : d.index == i <;> cases hg : nameFragOf d <;> simp [h, hg]

theorem length_foldl_applyDelta (ds : List ToolCallDelta) :
    ∀ (l : List ToolCall),
      (ds.foldl applyDelta l).length
        = ds.foldl (fun n d => max n (d.index + 1)) l.length := by
  induction ds with
  | nil => intro l; rfl
  | cons d ds ih =>
    intro l
    rw [List.foldl_cons, ih, length_applyDelta, List.foldl_cons]

theorem strJoin_foldl (l : List String) :
    ∀ (s : String), l.foldl (fun r t => r ++ t) s = s ++ String.join l := by
  induction l with
  | nil => intro s; simp [String.join, String.append_empty]
  | cons t l ih =>
    intro s
    rw [List.foldl_cons, ih]
    have hR : String.join (t :: l) = ("" ++ t) ++ String.join l := by
      have h1 : String.join (t :: l) = l.foldl (fun r u => r ++ u) ("" ++ t) := rfl
      rw [h1, ih]
    rw [hR, String.empty_append, String.append_assoc]

theorem strJoin_cons (t : String) (l : List String) :
    String.join (t :: l) = t ++ String.join l := by
  have h1 : String.join (t :: l) = l.foldl (fun r u => r ++ u) ("" ++ t) := rfl
  rw [h1, strJoin_foldl, String.empty_append]

theorem chunksConcatAt_map_argChunk (i : Nat) (cs : List String) :
    chunksConcatAt (cs.map (argChunkDelta i)) i = String.join cs := by
  induction cs with
  | nil => rfl
  | cons c cs ih =>
    rw [List.map_cons, chunksConcatAt_cons, ih, strJoin_cons]
    simp [argChunkDelta, argFragOf]

theorem processChunks_toolCalls_fold (chunks : List Chunk) :
    ∀ (st : ChunkAccum) (acc : List Action),
      ((chunks.foldl
          (fun p ch =>
            let q := processChunk p.1 ch
            (q.1, p.2 ++ q.2))
          (st, acc)).1).tool_calls
        = (chunks.flatMap (fun ch => ch.tool_calls)).foldl applyDelta
            st.tool_calls := by
  induction chunks with
  | nil => intro st acc; rfl
  | cons ch chs ih =>
    intro st acc
    rw [List.foldl_cons, List.flatMap_cons, List.foldl_append]
    exact ih (processChunk st ch).1 (acc ++ (processChunk st ch).2)

theorem processChunks_toolCalls (chunks : List Chunk) :
    (processChunks chunks).1.tool_calls
      = accumulateDeltas (chunks.flatMap (fun ch => ch.tool_calls)) :=
  processChunks_toolCalls_fold chunks ⟨[], []⟩ []

/-- Claim C1: the streaming loop reassembles tool calls by the fragment's
positional index, allocating empty slots up to that index as needed (the
array length is one past the largest index seen); per slot, `id` is the last
non-empty id streamed to that index, `function.name` is the last non-empty
name, and `function.arguments` is the in-order concatenation of all argument
chunks addressed to that index — hence for any split of an arguments string
into in-order chunks at one index the reassembled arguments are their
concatenation; and the chunk loop of `stream_run` computes exactly this
accumulation over the flattened fragment stream. -/
theorem toolcall_fragment_reassembly :
    ∀ (ds : List ToolCallDelta) (i : Nat),
      (accumulateDeltas ds).length = slotsLen ds
      ∧ argAt (accumulateDeltas ds) i = chunksConcatAt ds i
      ∧ idAt (accumulateDeltas ds) i = lastIdAt ds i
      ∧ nameAt (accumulateDeltas ds) i = (lastNameAt ds i).getD ""
      ∧ (∀ (cs : List String),
          argAt (accumulateDeltas (cs.map (argChunkDelta i))) i = String.join cs)
      ∧ ∀ (chunks : List Chunk),
          (processChunks chunks).1.tool_calls
            = accumulateDeltas (chunks.flatMap (fun ch => ch.tool_calls)) := by
  intro ds i
  refine ⟨?_, ?_, ?_, ?_, ?_, ?_⟩
  · exact length_foldl_applyDelta ds []
  · have h := argAt_foldl ds [] i
    simpa [accumulateDeltas, argAt, nthTC, String.empty_append] using h
  · rw [show accumulateDeltas ds = ds.foldl applyDelta [] from rfl,
      idAt_foldl ds [] i]
    cases hF : lastIdAt ds i <;> simp [hF, idAt, nthTC, emptyToolCall]
  · rw [show accumulateDeltas ds = ds.foldl applyDelta [] from rfl,
      nameAt_foldl ds [] i]
    cases hF : lastNameAt ds i <;> simp [hF, nameAt, nthTC, emptyToolCall]
  · intro cs
    have h := argAt_foldl (cs.map (argChunkDelta i)) [] i
    rw [chunksConcatAt_map_argChunk] at h
    simpa [accumulateDeltas, argAt, nthTC, String.empty_append] using h
  · exact processChunks_toolCalls

/- ===========================================================================
Lemmas about execute_tool
=========================================================================== -/

theorem execute_tool_of_error (env : Env) (a : Agent) (tc : ToolCall) (e : String)
    (h : execute_tool_try env a tc = .error e) :
    execute_tool env a tc =
      (.tool (tc.id.getD "") tc.function.name ("Error: " ++ e) none,
       .tool_response (tc.id.getD "") tc.function.name none) := by
  simp only [execute_tool, h]

theorem execute_tool_of_ok (env : Env) (a : Agent) (tc : ToolCall) (o : ToolOutput)
    (h : execute_tool_try env a tc = .ok o) :
    execute_tool env a tc =
      (.tool (tc.id.getD "") tc.function.name o.response o.data,
       .tool_response (tc.id.getD "") tc.function.name o.data) := by
  simp only [execute_tool, h]

theorem execute_tool_components (env : Env) (a : Agent) (tc : ToolCall) :
    ∃ o : ToolOutput,
      execute_tool env a tc =
        (.tool (tc.id.getD "") tc.function.name o.response o.data,
         .tool_response (tc.id.getD "") tc.function.name o.data) := by
  cases h : execute_tool_try env a tc with
  | ok o => exact ⟨o, execute_tool_of_ok env a tc o h⟩
  | error e =>
    exact ⟨{ response := "Error: " ++ e, data := none },
      execute_tool_of_error env a tc e h⟩

theorem execute_tool_try_unknown (env : Env) (a : Agent) (tc : ToolCall)
    (h : a.toolsLookup tc.function.name = none) :
    execute_tool_try env a tc = .error ("Unknown tool: " ++ tc.function.name) := by
  simp only [execute_tool_try, h]

theorem execute_tool_try_parse_error (env : Env) (a : Agent) (tc : ToolCall)
    (ts : ToolSpec) (e : String)
    (h1 : a.toolsLookup tc.function.name = some ts)
    (h2 : env.parseJson tc.function.arguments = .error e) :
    execute_tool_try env a tc = .error e := by
  simp only [execute_tool_try, h1, h2]

theorem execute_tool_try_raises (env : Env) (a : Agent) (tc : ToolCall)
    (ts : ToolSpec) (v : Value) (e : String)
    (h1 : a.toolsLookup tc.function.name = some ts)
    (h2 : env.parseJson tc.function.arguments = .ok v)
    (h3 : ts.run v = .raises e) :
    execute_tool_try env a tc = .error e := by
  simp only [execute_tool_try, h1, h2, h3]

theorem execute_tool_try_returns (env : Env) (a : Agent) (tc : ToolCall)
    (ts : ToolSpec) (v : Value) (r : ToolReturn)
    (h1 : a.toolsLookup tc.function.name = some ts)
    (h2 : env.parseJson tc.function.arguments = .ok v)
    (h3 : ts.run v = .returns r) :
    execute_tool_try env a tc = normalizeResult r := by
  simp only [execute_tool_try, h1, h2, h3]

theorem execute_tool_content_error (env : Env) (a : Agent) (tc : ToolCall)
    (e : String) (h : execute_tool_try env a tc = .error e) :
    toolMsgContent (execute_tool env a tc).1 = "Error: " ++ e := by
  rw [execute_tool_of_error env a tc e h]
  rfl

/- ===========================================================================
Lemmas about the per-turn trace
=========================================================================== -/

theorem runToolCall_def (env : Env) (a : Agent) (tc : ToolCall) :
    runToolCall env a tc =
      [.emit (toolCallEvent env tc), .persist (execute_tool env a tc).1,
       .emit (execute_tool env a tc).2] := rfl

theorem runStep_fail (env : Env) (a : Agent) (turn : ModelTurn) (e : String)
    (h : turn.fail = some e) :
    runStep env a turn =
      (Action.callLLM (mkRequest a) :: (processChunks turn.chunks).2,
       .stepRaised e) := by
  simp only [runStep, h]

theorem runStep_break (env : Env) (a : Agent) (turn : ModelTurn)
    (h : turn.fail = none)
    (h2 : (processChunks turn.chunks).1.tool_calls = []) :
    runStep env a turn =
      (Action.callLLM (mkRequest a) :: (processChunks turn.chunks).2
        ++ [.persist (.assistant
              (String.join (processChunks turn.chunks).1.full_content) none)],
       .stepBroke) := by
  simp only [runStep, h, h2]
  simp

theorem runStep_tools (env : Env) (a : Agent) (turn : ModelTurn)
    (h : turn.fail = none)
    (h2 : (processChunks turn.chunks).1.tool_calls ≠ []) :
    runStep env a turn =
      (Action.callLLM (mkRequest a) :: (processChunks turn.chunks).2
        ++ .persist (.assistant
              (String.join (processChunks turn.chunks).1.full_content)
              (some (processChunks turn.chunks).1.tool_calls))
          :: (processChunks turn.chunks).1.tool_calls.flatMap (runToolCall env a),
       .stepNext) := by
  have hne : (processChunks turn.chunks).1.tool_calls.isEmpty = false := by
    cases hl : (processChunks turn.chunks).1.tool_calls with
    | nil => exact absurd hl h2
    | cons x xs => rfl
  simp only [runStep, h, hne]
  simp

theorem runStep_fail_acts (env : Env) (a : Agent) (turn : ModelTurn) (e : String)
    (h : turn.fail = some e) :
    (runStep env a turn).1
      = Action.callLLM (mkRequest a) :: (processChunks turn.chunks).2 := by
  rw [runStep_fail env a turn e h]

theorem runStep_fail_exit (env : Env) (a : Agent) (turn : ModelTurn) (e : String)
    (h : turn.fail = some e) :
    (runStep env a turn).2 = .stepRaised e := by
  rw [runStep_fail env a turn e h]

theorem runStep_break_acts (env : Env) (a : Agent) (turn : ModelTurn)
    (h : turn.fail = none)
    (h2 : (processChunks turn.chunks).1.tool_calls = []) :
    (runStep env a turn).1
      = Action.callLLM (mkRequest a) :: (processChunks turn.chunks).2
          ++ [.persist (.assistant
                (String.join (processChunks turn.chunks).1.full_content) none)] := by
  rw [runStep_break env a turn h h2]

theorem runStep_break_exit (env : Env) (a : Agent) (turn : ModelTurn)
    (h : turn.fail = none)
    (h2 : (processChunks turn.chunks).1.tool_calls = []) :
    (runStep env a turn).2 = .stepBroke := by
  rw [runStep_break env a turn h h2]

theorem runStep_tools_acts (env : Env) (a : Agent) (turn : ModelTurn)
    (h : turn.fail = none)
    (h2 : (processChunks turn.chunks).1.tool_calls ≠ []) :
    (runStep env a turn).1
      = Action.callLLM (mkRequest a) :: (processChunks turn.chunks).2
          ++ .persist (.assistant
                (String.join (processChunks turn.chunks).1.full_content)
                (some (processChunks turn.chunks).1.tool_calls))
            :: (processChunks turn.chunks).1.tool_calls.flatMap
                (runToolCall env a) := by
  rw [runStep_tools env a turn h h2]

theorem runStep_tools_exit (env : Env) (a : Agent) (turn : ModelTurn)
    (h : turn.fail = none)
    (h2 : (processChunks turn.chunks).1.tool_calls ≠ []) :
    (runStep env a turn).2 = .stepNext := by
  rw [runStep_tools env a turn h h2]

theorem contentActs_shape (chunks : List Chunk) :
    ∀ (st : ChunkAccum) (acc : List Action),
      (∀ x ∈ acc, ∃ s, x = Action.emit (.content_delta s)) →
      ∀ x ∈ (chunks.foldl
          (fun p ch =>
            let q := processChunk p.1 ch
            (q.1, p.2 ++ q.2))
          (st, acc)).2,
        ∃ s, x = Action.emit (.content_delta s) := by
  induction chunks with
  | nil => intro st acc hacc; exact hacc
  | cons ch chs ih =>
    intro st acc hacc
    rw [List.foldl_cons]
    refine ih (processChunk st ch).1 _ ?_
    intro x hx
    rcases List.mem_append.1 hx with hx | hx
    · exact hacc x hx
    · revert hx
      show x ∈ (processChunk st ch).2 → _
      unfold processChunk
      cases htr : truthy ch.content <;> simp
      intro hx
      exact ⟨_, hx⟩

theorem processChunks_acts_shape (chunks : List Chunk) :
    ∀ x ∈ (processChunks chunks).2, ∃ s, x = Action.emit (.content_delta s) :=
  contentActs_shape chunks ⟨[], []⟩ [] (by intro x hx; simp at hx)

theorem persistedMsgs_nil : persistedMsgs [] = [] := rfl

theorem persistedMsgs_append (l1 l2 : List Action) :
    persistedMsgs (l1 ++ l2) = persistedMsgs l1 ++ persistedMsgs l2 :=
  List.filterMap_append l1 l2 _

theorem emittedEvents_append (l1 l2 : List Action) :
    emittedEvents (l1 ++ l2) = emittedEvents l1 ++ emittedEvents l2 :=
  List.filterMap_append l1 l2 _

theorem persistedMsgs_content (acts : List Action)
    (h : ∀ x ∈ acts, ∃ s, x = Action.emit (.content_delta s)) :
    persistedMsgs acts = [] := by
  induction acts with
  | nil => rfl
  | cons x xs ih =>
    obtain ⟨s, hs⟩ := h x (List.mem_cons_self x xs)
    subst hs
    simp only [persistedMsgs, List.filterMap_cons]
    exact ih fun y hy => h y (List.mem_cons_of_mem _ hy)

theorem emittedEvents_content (acts : List Action)
    (h : ∀ x ∈ acts, ∃ s, x = Action.emit (.content_delta s)) :
    ∀ e ∈ emittedEvents acts, ∃ s, e = StreamEvent.content_delta s := by
  induction acts with
  | nil => intro e he; simp [emittedEvents] at he
  | cons x xs ih =>
    obtain ⟨s, hs⟩ := h x (List.mem_cons_self x xs)
    subst hs
    intro e he
    simp only [emittedEvents, List.filterMap_cons] at he
    rcases List.mem_cons.1 he with he | he
    · exact ⟨s, he⟩
    · exact ih (fun y hy => h y (List.mem_cons_of_mem _ hy)) e he

theorem emittedEvents_flatMap_toolCalls (env : Env) (a : Agent)
    (tcs : List ToolCall) :
    emittedEvents (tcs.flatMap (runToolCall env a))
      = tcs.flatMap (fun tc => [toolCallEvent env tc, (execute_tool env a tc).2]) := by
  induction tcs with
  | nil => rfl
  | cons tc tcs ih =>
    rw [List.flatMap_cons, List.flatMap_cons, emittedEvents_append,
      runToolCall_def, ih]
    rfl

theorem persistedMsgs_flatMap_toolCalls (env : Env) (a : Agent)
    (tcs : List ToolCall) :
    persistedMsgs (tcs.flatMap (runToolCall env a))
      = tcs.map (fun tc => (execute_tool env a tc).1) := by
  induction tcs with
  | nil => rfl
  | cons tc tcs ih =>
    rw [List.flatMap_cons, List.map_cons, persistedMsgs_append,
      runToolCall_def, ih]
    rfl

theorem emittedEvents_cons_callLLM (r : Request) (l : List Action) :
    emittedEvents (Action.callLLM r :: l) = emittedEvents l := rfl

theorem emittedEvents_cons_persist (m : Message) (l : List Action) :
    emittedEvents (Action.persist m :: l) = emittedEvents l := rfl

theorem emittedEvents_cons_emit (e : StreamEvent) (l : List Action) :
    emittedEvents (Action.emit e :: l) = e :: emittedEvents l := rfl

theorem persistedMsgs_cons_callLLM (r : Request) (l : List Action) :
    persistedMsgs (Action.callLLM r :: l) = persistedMsgs l := rfl

theorem persistedMsgs_cons_persist (m : Message) (l : List Action) :
    persistedMsgs (Action.persist m :: l) = m :: persistedMsgs l := rfl

theorem persistedMsgs_cons_emit (e : StreamEvent) (l : List Action) :
    persistedMsgs (Action.emit e :: l) = persistedMsgs l := rfl

theorem isToolCallEv_toolCallEvent (env : Env) (tc : ToolCall) :
    isToolCallEv (toolCallEvent env tc) = true := rfl

theorem isToolResponseEv_toolCallEvent (env : Env) (tc : ToolCall) :
    isToolResponseEv (toolCallEvent env tc) = false := rfl

theorem isTerminal_toolCallEvent (env : Env) (tc : ToolCall) :
    isTerminal (toolCallEvent env tc) = false := rfl

theorem isToolResponseEv_execute_tool_snd (env : Env) (a : Agent) (tc : ToolCall) :
    isToolResponseEv (execute_tool env a tc).2 = true := by
  obtain ⟨o, ho⟩ := execute_tool_components env a tc
  rw [ho]
  rfl

theorem isToolCallEv_execute_tool_snd (env : Env) (a : Agent) (tc : ToolCall) :
    isToolCallEv (execute_tool env a tc).2 = false := by
  obtain ⟨o, ho⟩ := execute_tool_components env a tc
  rw [ho]
  rfl

theorem isTerminal_execute_tool_snd (env : Env) (a : Agent) (tc : ToolCall) :
    isTerminal (execute_tool env a tc).2 = false := by
  obtain ⟨o, ho⟩ := execute_tool_components env a tc
  rw [ho]
  rfl

theorem countP_eq_zero_of_all {α : Type} (p : α → Bool) (l : List α)
    (h : ∀ x ∈ l, p x = false) : l.countP p = 0 := by
  induction l with
  | nil => rfl
  | cons x xs ih =>
    rw [List.countP_cons, h x (List.mem_cons_self x xs)]
    simpa using ih fun y hy => h y (List.mem_cons_of_mem _ hy)

theorem countP_events_toolCall (env : Env) (a : Agent) (tcs : List ToolCall) :
    ((tcs.flatMap fun tc =>
        [toolCallEvent env tc, (execute_tool env a tc).2]).countP isToolCallEv)
      = tcs.length := by
  induction tcs with
  | nil => rfl
  | cons tc tcs ih =>
    rw [List.flatMap_cons]
    simp [List.countP_append, List.countP_cons,
      isToolCallEv_toolCallEvent, isToolCallEv_execute_tool_snd, ih]

theorem countP_events_toolResponse (env : Env) (a : Agent) (tcs : List ToolCall) :
    ((tcs.flatMap fun tc =>
        [toolCallEvent env tc, (execute_tool env a tc).2]).countP isToolResponseEv)
      = tcs.length := by
  induction tcs with
  | nil => rfl
  | cons tc tcs ih =>
    rw [List.flatMap_cons]
    simp [List.countP_append, List.countP_cons,
      isToolResponseEv_toolCallEvent, isToolResponseEv_execute_tool_snd, ih]

theorem events_flatMap_nonterminal (env : Env) (a : Agent) (tcs : List ToolCall) :
    ∀ e ∈ (tcs.flatMap fun tc =>
        [toolCallEvent env tc, (execute_tool env a tc).2]),
      isTerminal e = false := by
  induction tcs with
  | nil => intro e he; simp at he
  | cons tc tcs ih =>
    intro e he
    rw [List.flatMap_cons] at he
    rcases List.mem_append.1 he with he | he
    · rcases List.mem_cons.1 he with rfl | he
      · exact isTerminal_toolCallEvent env tc
      · rcases List.mem_cons.1 he with rfl | he
        · exact isTerminal_execute_tool_snd env a tc
        · simp at he
    · exact ih e he

theorem runStep_events_nonterminal (env : Env) (a : Agent) (turn : ModelTurn) :
    ∀ e ∈ emittedEvents (runStep env a turn).1, isTerminal e = false := by
  intro e he
  cases hf : turn.fail with
  | some ex =>
    rw [runStep_fail_acts env a turn ex hf, emittedEvents_cons_callLLM] at he
    obtain ⟨s, hs⟩ := emittedEvents_content _ (processChunks_acts_shape turn.chunks) e he
    subst hs; rfl
  | none =>
    by_cases h2 : (processChunks turn.chunks).1.tool_calls = []
    · rw [runStep_break_acts env a turn hf h2, List.cons_append, emittedEvents_cons_callLLM,
        emittedEvents_append] at he
      rcases List.mem_append.1 he with he | he
      · obtain ⟨s, hs⟩ :=
          emittedEvents_content _ (processChunks_acts_shape turn.chunks) e he
        subst hs; rfl
      · simp [emittedEvents] at he
    · rw [runStep_tools_acts env a turn hf h2, List.cons_append, emittedEvents_cons_callLLM,
        emittedEvents_append, emittedEvents_cons_persist,
        emittedEvents_flatMap_toolCalls] at he
      rcases List.mem_append.1 he with he | he
      · obtain ⟨s, hs⟩ :=
          emittedEvents_content _ (processChunks_acts_shape turn.chunks) e he
        subst hs; rfl
      · exact events_flatMap_nonterminal env a _ e he

theorem countP_callLLM_content (acts : List Action)
    (h : ∀ x ∈ acts, ∃ s, x = Action.emit (.content_delta s)) :
    acts.countP isCallLLM = 0 := by
  refine countP_eq_zero_of_all _ _ fun x hx => ?_
  obtain ⟨s, hs⟩ := h x hx
  subst hs; rfl

theorem countP_callLLM_flatMap (env : Env) (a : Agent) (tcs : List ToolCall) :
    (tcs.flatMap (runToolCall env a)).countP isCallLLM = 0 := by
  refine countP_eq_zero_of_all _ _ fun x hx => ?_
  rcases List.mem_flatMap.1 hx with ⟨tc, _, hmem⟩
  rw [runToolCall_def] at hmem
  rcases List.mem_cons.1 hmem with rfl | hmem
  · rfl
  · rcases List.mem_cons.1 hmem with rfl | hmem
    · rfl
    · rcases List.mem_cons.1 hmem with rfl | hmem
      · rfl
      · simp at hmem

theorem runStep_countP_callLLM (env : Env) (a : Agent) (turn : ModelTurn) :
    (runStep env a turn).1.countP isCallLLM = 1 := by
  cases hf : turn.fail with
  | some ex =>
    rw [runStep_fail_acts env a turn ex hf]
    simp only [List.countP_cons]
    rw [countP_callLLM_content _ (processChunks_acts_shape turn.chunks)]
    rfl
  | none =>
    by_cases h2 : (processChunks turn.chunks).1.tool_calls = []
    · rw [runStep_break_acts env a turn hf h2]
      simp only [List.countP_cons, List.countP_append]
      rw [countP_callLLM_content _ (processChunks_acts_shape turn.chunks)]
      rfl
    · rw [runStep_tools_acts env a turn hf h2]
      simp only [List.countP_cons, List.countP_append]
      rw [countP_callLLM_content _ (processChunks_acts_shape turn.chunks),
        countP_callLLM_flatMap]
      rfl

/- ===========================================================================
Lemmas about the loop
=========================================================================== -/

theorem loopAux_zero (env : Env) (tp : Nat → ModelTurn) (i : Nat) (a : Agent) :
    loopAux env tp 0 i a = ([.emit .done], a) := rfl

theorem loopAux_succ_raised (env : Env) (tp : Nat → ModelTurn) (fuel i : Nat)
    (a : Agent) (e : String) (h : (runStep env a (tp i)).2 = .stepRaised e) :
    loopAux env tp (fuel + 1) i a =
      ((runStep env a (tp i)).1 ++ [.emit (.error e)],
       { a with messages := a.messages ++ persistedMsgs (runStep env a (tp i)).1 }) := by
  simp only [loopAux, h]

theorem loopAux_succ_raised_acts (env : Env) (tp : Nat → ModelTurn) (fuel i : Nat)
    (a : Agent) (e : String) (h : (runStep env a (tp i)).2 = .stepRaised e) :
    (loopAux env tp (fuel + 1) i a).1
      = (runStep env a (tp i)).1 ++ [.emit (.error e)] := by
  rw [loopAux_succ_raised env tp fuel i a e h]

theorem loopAux_succ_broke (env : Env) (tp : Nat → ModelTurn) (fuel i : Nat)
    (a : Agent) (h : (runStep env a (tp i)).2 = .stepBroke) :
    loopAux env tp (fuel + 1) i a =
      ((runStep env a (tp i)).1 ++ [.emit .done],
       { a with messages := a.messages ++ persistedMsgs (runStep env a (tp i)).1 }) := by
  simp only [loopAux, h]

theorem loopAux_succ_broke_acts (env : Env) (tp : Nat → ModelTurn) (fuel i : Nat)
    (a : Agent) (h : (runStep env a (tp i)).2 = .stepBroke) :
    (loopAux env tp (fuel + 1) i a).1
      = (runStep env a (tp i)).1 ++ [.emit .done] := by
  rw [loopAux_succ_broke env tp fuel i a h]

theorem loopAux_succ_next (env : Env) (tp : Nat → ModelTurn) (fuel i : Nat)
    (a : Agent) (h : (runStep env a (tp i)).2 = .stepNext) :
    loopAux env tp (fuel + 1) i a =
      ((runStep env a (tp i)).1
          ++ (loopAux env tp fuel (i + 1)
              { a with
                messages := a.messages ++ persistedMsgs (runStep env a (tp i)).1 }).1,
       (loopAux env tp fuel (i + 1)
          { a with
            messages := a.messages ++ persistedMsgs (runStep env a (tp i)).1 }).2) := by
  simp only [loopAux, h]

theorem loopAux_succ_next_acts (env : Env) (tp : Nat → ModelTurn) (fuel i : Nat)
    (a : Agent) (h : (runStep env a (tp i)).2 = .stepNext) :
    (loopAux env tp (fuel + 1) i a).1
      = (runStep env a (tp i)).1
          ++ (loopAux env tp fuel (i + 1)
              { a with
                messages := a.messages ++ persistedMsgs (runStep env a (tp i)).1 }).1 := by
  rw [loopAux_succ_next env tp fuel i a h]

theorem loopAux_succ_next_agent (env : Env) (tp : Nat → ModelTurn) (fuel i : Nat)
    (a : Agent) (h : (runStep env a (tp i)).2 = .stepNext) :
    (loopAux env tp (fuel + 1) i a).2
      = (loopAux env tp fuel (i + 1)
          { a with
            messages := a.messages ++ persistedMsgs (runStep env a (tp i)).1 }).2 := by
  rw [loopAux_succ_next env tp fuel i a h]

theorem loopAux_terminal (env : Env) (tp : Nat → ModelTurn) :
    ∀ (fuel i : Nat) (a : Agent),
      ∃ evs t, emittedEvents (loopAux env tp fuel i a).1 = evs ++ [t]
        ∧ isTerminal t = true
        ∧ ∀ e ∈ evs, isTerminal e = false := by
  intro fuel
  induction fuel with
  | zero =>
    intro i a
    exact ⟨[], .done, rfl, rfl, by intro e he; simp at he⟩
  | succ fuel ih =>
    intro i a
    cases hexit : (runStep env a (tp i)).2 with
    | stepRaised e =>
      rw [loopAux_succ_raised_acts env tp fuel i a e hexit, emittedEvents_append]
      exact ⟨emittedEvents (runStep env a (tp i)).1, .error e, rfl, rfl,
        runStep_events_nonterminal env a (tp i)⟩
    | stepBroke =>
      rw [loopAux_succ_broke_acts env tp fuel i a hexit, emittedEvents_append]
      exact ⟨emittedEvents (runStep env a (tp i)).1, .done, rfl, rfl,
        runStep_events_nonterminal env a (tp i)⟩
    | stepNext =>
      obtain ⟨evs, t, hspec, ht, hnt⟩ :=
        ih (i + 1)
          { a with messages := a.messages ++ persistedMsgs (runStep env a (tp i)).1 }
      rw [loopAux_succ_next_acts env tp fuel i a hexit, emittedEvents_append,
        hspec]
      refine ⟨emittedEvents (runStep env a (tp i)).1 ++ evs, t,
        (List.append_assoc _ _ _).symm, ht, ?_⟩
      intro e he
      rcases List.mem_append.1 he with he | he
      · exact runStep_events_nonterminal env a (tp i) e he
      · exact hnt e he

theorem loopAux_done (env : Env) (tp : Nat → ModelTurn) :
    ∀ (fuel i : Nat) (a : Agent),
      (∀ j, i ≤ j → j < i + fuel → (tp j).fail = none) →
      ∃ evs, emittedEvents (loopAux env tp fuel i a).1 = evs ++ [.done]
        ∧ ∀ e ∈ evs, isTerminal e = false := by
  intro fuel
  induction fuel with
  | zero =>
    intro i a _
    exact ⟨[], rfl, by intro e he; simp at he⟩
  | succ fuel ih =>
    intro i a hfail
    have h0 : (tp i).fail = none :=
      hfail i (Nat.le_refl i) (by omega)
    by_cases htc : (processChunks (tp i).chunks).1.tool_calls = []
    · rw [loopAux_succ_broke_acts env tp fuel i a
        (runStep_break_exit env a (tp i) h0 htc), emittedEvents_append]
      exact ⟨emittedEvents (runStep env a (tp i)).1, rfl,
        runStep_events_nonterminal env a (tp i)⟩
    · obtain ⟨evs, hspec, hnt⟩ :=
        ih (i + 1)
          { a with messages := a.messages ++ persistedMsgs (runStep env a (tp i)).1 }
          (fun j h1 h2 => hfail j (by omega) (by omega))
      rw [loopAux_succ_next_acts env tp fuel i a
        (runStep_tools_exit env a (tp i) h0 htc), emittedEvents_append, hspec]
      refine ⟨emittedEvents (runStep env a (tp i)).1 ++ evs,
        (List.append_assoc _ _ _).symm, ?_⟩
      intro e he
      rcases List.mem_append.1 he with he | he
      · exact runStep_events_nonterminal env a (tp i) e he
      · exact hnt e he

theorem loopAux_error (env : Env) (tp : Nat → ModelTurn) :
    ∀ (fuel i : Nat) (a : Agent) (k : Nat) (e : String),
      i ≤ k → k < i + fuel →
      (∀ j, i ≤ j → j < k →
        (tp j).fail = none
        ∧ (processChunks (tp j).chunks).1.tool_calls ≠ []) →
      (tp k).fail = some e →
      ∃ evs, emittedEvents (loopAux env tp fuel i a).1 = evs ++ [.error e]
        ∧ ∀ x ∈ evs, isTerminal x = false := by
  intro fuel
  induction fuel with
  | zero =>
    intro i a k e h1 h2 _ _
    omega
  | succ fuel ih =>
    intro i a k e h1 h2 hprev hk
    by_cases hik : k = i
    · subst hik
      have hexit := runStep_fail_exit env a (tp k) e hk
      rw [loopAux_succ_raised_acts env tp fuel k a e hexit,
        emittedEvents_append]
      exact ⟨emittedEvents (runStep env a (tp k)).1, rfl,
        runStep_events_nonterminal env a (tp k)⟩
    · have hik' : i < k := by omega
      obtain ⟨hf, htc⟩ := hprev i (Nat.le_refl i) hik'
      have hexit := runStep_tools_exit env a (tp i) hf htc
      obtain ⟨evs, hspec, hnt⟩ :=
        ih (i + 1)
          { a with
            messages := a.messages ++ persistedMsgs (runStep env a (tp i)).1 }
          k e (by omega) (by omega)
          (fun j hj1 hj2 => hprev j (by omega) hj2) hk
      rw [loopAux_succ_next_acts env tp fuel i a hexit, emittedEvents_append,
        hspec]
      refine ⟨emittedEvents (runStep env a (tp i)).1 ++ evs,
        (List.append_assoc _ _ _).symm, ?_⟩
      intro x hx
      rcases List.mem_append.1 hx with hx | hx
      · exact runStep_events_nonterminal env a (tp i) x hx
      · exact hnt x hx

theorem loopAux_exhaust (env : Env) (tp : Nat → ModelTurn) :
    ∀ (fuel i : Nat) (a : Agent),
      (∀ j, i ≤ j → j < i + fuel →
        (tp j).fail = none ∧ (processChunks (tp j).chunks).1.tool_calls ≠ []) →
      (∃ evs, emittedEvents (loopAux env tp fuel i a).1 = evs ++ [.done]
        ∧ ∀ e ∈ evs, isTerminal e = false)
      ∧ (loopAux env tp fuel i a).1.countP isCallLLM = fuel := by
  intro fuel
  induction fuel with
  | zero =>
    intro i a _
    exact ⟨⟨[], rfl, by intro e he; simp at he⟩, rfl⟩
  | succ fuel ih =>
    intro i a hcond
    obtain ⟨h0, htc⟩ := hcond i (Nat.le_refl i) (by omega)
    have hexit := runStep_tools_exit env a (tp i) h0 htc
    obtain ⟨⟨evs, hspec, hnt⟩, hcount⟩ :=
      ih (i + 1)
        { a with messages := a.messages ++ persistedMsgs (runStep env a (tp i)).1 }
        (fun j h1 h2 => hcond j (by omega) (by omega))
    constructor
    · rw [loopAux_succ_next_acts env tp fuel i a hexit, emittedEvents_append,
        hspec]
      refine ⟨emittedEvents (runStep env a (tp i)).1 ++ evs,
        (List.append_assoc _ _ _).symm, ?_⟩
      intro e he
      rcases List.mem_append.1 he with he | he
      · exact runStep_events_nonterminal env a (tp i) e he
      · exact hnt e he
    · rw [loopAux_succ_next_acts env tp fuel i a hexit, List.countP_append,
        hcount, runStep_countP_callLLM]
      omega

theorem countP_content_events (p : StreamEvent → Bool)
    (hp : ∀ s, p (.content_delta s) = false) (acts : List Action)
    (h : ∀ x ∈ acts, ∃ s, x = Action.emit (.content_delta s)) :
    (emittedEvents acts).countP p = 0 := by
  refine countP_eq_zero_of_all _ _ fun e he => ?_
  obtain ⟨s, hs⟩ := emittedEvents_content acts h e he
  subst hs
  exact hp s

/-- The per-turn trace facts shared by several claims: on a turn with tool
calls, the step emits one `tool_call` and one `tool_response` event per
accumulated call, persists the assistant message followed by one tool
message per call, and falls through to the next loop iteration. -/
theorem runStep_tools_counts (env : Env) (a : Agent) (turn : ModelTurn)
    (h : turn.fail = none)
    (h2 : (processChunks turn.chunks).1.tool_calls ≠ []) :
    (emittedEvents (runStep env a turn).1).countP isToolCallEv
        = (processChunks turn.chunks).1.tool_calls.length
    ∧ (emittedEvents (runStep env a turn).1).countP isToolResponseEv
        = (processChunks turn.chunks).1.tool_calls.length
    ∧ persistedMsgs (runStep env a turn).1
        = .assistant (String.join (processChunks turn.chunks).1.full_content)
            (some (processChunks turn.chunks).1.tool_calls)
          :: (processChunks turn.chunks).1.tool_calls.map
              (fun tc => (execute_tool env a tc).1)
    ∧ (runStep env a turn).2 = .stepNext := by
  refine ⟨?_, ?_, ?_, runStep_tools_exit env a turn h h2⟩
  · rw [runStep_tools_acts env a turn h h2, List.cons_append,
      emittedEvents_cons_callLLM, emittedEvents_append,
      emittedEvents_cons_persist, emittedEvents_flatMap_toolCalls,
      List.countP_append,
      countP_content_events isToolCallEv (fun _ => rfl) _
        (processChunks_acts_shape turn.chunks),
      countP_events_toolCall]
    omega
  · rw [runStep_tools_acts env a turn h h2, List.cons_append,
      emittedEvents_cons_callLLM, emittedEvents_append,
      emittedEvents_cons_persist, emittedEvents_flatMap_toolCalls,
      List.countP_append,
      countP_content_events isToolResponseEv (fun _ => rfl) _
        (processChunks_acts_shape turn.chunks),
      countP_events_toolResponse]
    omega
  · rw [runStep_tools_acts env a turn h h2, List.cons_append,
      persistedMsgs_cons_callLLM, persistedMsgs_append,
      persistedMsgs_cons_persist, persistedMsgs_flatMap_toolCalls,
      persistedMsgs_content _ (processChunks_acts_shape turn.chunks),
      List.nil_append]

theorem emittedEvents_map_persist (l : List Message) :
    emittedEvents (l.map .persist) = [] := by
  induction l with
  | nil => rfl
  | cons m ms ih => rw [List.map_cons, emittedEvents_cons_persist, ih]

theorem persistedMsgs_map_persist (l : List Message) :
    persistedMsgs (l.map .persist) = l := by
  induction l with
  | nil => rfl
  | cons m ms ih => rw [List.map_cons, persistedMsgs_cons_persist, ih]

theorem stream_run_acts (env : Env) (tp : Nat → ModelTurn) (a : Agent)
    (initial : List Message) :
    (stream_run env tp a initial).1
      = initial.map .persist
          ++ (loopAux env tp a.max_steps 0
              { a with messages := a.messages ++ initial }).1 := rfl

theorem stream_run_agent (env : Env) (tp : Nat → ModelTurn) (a : Agent)
    (initial : List Message) :
    (stream_run env tp a initial).2
      = (loopAux env tp a.max_steps 0
          { a with messages := a.messages ++ initial }).2 := rfl

theorem runStep_callLLM_mem (env : Env) (a : Agent) (turn : ModelTurn)
    (req : Request) (hmem : Action.callLLM req ∈ (runStep env a turn).1) :
    req = mkRequest a := by
  cases hf : turn.fail with
  | some e =>
    rw [runStep_fail_acts env a turn e hf] at hmem
    rcases List.mem_cons.1 hmem with heq | hmem
    · exact Action.callLLM.inj heq
    · obtain ⟨s, hs⟩ := processChunks_acts_shape turn.chunks _ hmem
      exact Action.noConfusion hs
  | none =>
    by_cases h2 : (processChunks turn.chunks).1.tool_calls = []
    · rw [runStep_break_acts env a turn hf h2, List.cons_append] at hmem
      rcases List.mem_cons.1 hmem with heq | hmem
      · exact Action.callLLM.inj heq
      · rcases List.mem_append.1 hmem with hmem | hmem
        · obtain ⟨s, hs⟩ := processChunks_acts_shape turn.chunks _ hmem
          exact Action.noConfusion hs
        · rcases List.mem_cons.1 hmem with heq | hmem
          · exact Action.noConfusion heq
          · simp at hmem
    · rw [runStep_tools_acts env a turn hf h2, List.cons_append] at hmem
      rcases List.mem_cons.1 hmem with heq | hmem
      · exact Action.callLLM.inj heq
      · rcases List.mem_append.1 hmem with hmem | hmem
        · obtain ⟨s, hs⟩ := processChunks_acts_shape turn.chunks _ hmem
          exact Action.noConfusion hs
        · rcases List.mem_cons.1 hmem with heq | hmem
          · exact Action.noConfusion heq
          · rcases List.mem_flatMap.1 hmem with ⟨tc, _, hin⟩
            rw [runToolCall_def] at hin
            rcases List.mem_cons.1 hin with heq | hin
            · exact Action.noConfusion heq
            · rcases List.mem_cons.1 hin with heq | hin
              · exact Action.noConfusion heq
              · rcases List.mem_cons.1 hin with heq | hin
                · exact Action.noConfusion heq
                · simp at hin

theorem agent_msgs_tool_schemas (a : Agent) (m : List Message) :
    ({ a with messages := m } : Agent).tool_schemas = a.tool_schemas := rfl

theorem mkRequest_tools (a : Agent) :
    (mkRequest a).tools = a.toolsOverride.getD a.tool_schemas := rfl

theorem loopAux_callLLM_tools (env : Env) (tp : Nat → ModelTurn) :
    ∀ (fuel i : Nat) (a : Agent) (req : Request),
      Action.callLLM req ∈ (loopAux env tp fuel i a).1 →
      req.tools = a.toolsOverride.getD a.tool_schemas := by
  intro fuel
  induction fuel with
  | zero =>
    intro i a req hmem
    rw [loopAux_zero] at hmem
    rcases List.mem_cons.1 hmem with heq | hmem
    · exact Action.noConfusion heq
    · simp at hmem
  | succ fuel ih =>
    intro i a req hmem
    cases hexit : (runStep env a (tp i)).2 with
    | stepRaised e =>
      rw [loopAux_succ_raised_acts env tp fuel i a e hexit] at hmem
      rcases List.mem_append.1 hmem with hmem | hmem
      · rw [runStep_callLLM_mem env a (tp i) req hmem, mkRequest_tools]
      · rcases List.mem_cons.1 hmem with heq | hmem
        · exact Action.noConfusion heq
        · simp at hmem
    | stepBroke =>
      rw [loopAux_succ_broke_acts env tp fuel i a hexit] at hmem
      rcases List.mem_append.1 hmem with hmem | hmem
      · rw [runStep_callLLM_mem env a (tp i) req hmem, mkRequest_tools]
      · rcases List.mem_cons.1 hmem with heq | hmem
        · exact Action.noConfusion heq
        · simp at hmem
    | stepNext =>
      rw [loopAux_succ_next_acts env tp fuel i a hexit] at hmem
      rcases List.mem_append.1 hmem with hmem | hmem
      · rw [runStep_callLLM_mem env a (tp i) req hmem, mkRequest_tools]
      · exact ih (i + 1)
          { a with messages := a.messages ++ persistedMsgs (runStep env a (tp i)).1 }
          req hmem

/- ===========================================================================
Lemmas about tool-call id matching and append-only histories
=========================================================================== -/

theorem count_le_one_of_nodup (l : List (Option String)) (a : Option String)
    (h : l.Nodup) : l.count a ≤ 1 := by
  induction l with
  | nil => simp
  | cons x xs ih =>
    rcases List.nodup_cons.1 h with ⟨hx, hxs⟩
    rw [List.count_cons]
    by_cases hxa : x = a
    · subst hxa
      have hz : xs.count x = 0 := List.count_eq_zero.2 hx
      simp [hz]
    · have hb : (x == a) = false := by simp [hxa]
      simp only [hb, if_false]
      simpa using ih hxs

theorem assistantCallIds_append (h1 h2 : List Message) :
    assistantCallIds (h1 ++ h2)
      = assistantCallIds h1 ++ assistantCallIds h2 :=
  List.flatMap_append h1 h2 _

theorem prefixMatched_of_noTool (h : List Message)
    (hh : ∀ m ∈ h, isToolMsg m = false) : PrefixMatched h := by
  intro h1 h2 id name content d heq
  exfalso
  have hmem : Message.tool id name content d ∈ h := by
    rw [heq]
    exact List.mem_append.2 (Or.inr (List.mem_cons_self _ _))
  have hfalse := hh _ hmem
  simp [isToolMsg] at hfalse

theorem prefixMatched_append (h ext : List Message)
    (hm : PrefixMatched h)
    (hext : ∀ (e1 e2 : List Message) (id name content : String)
        (d : Option Dict),
      ext = e1 ++ .tool id name content d :: e2 →
      0 < (assistantCallIds (h ++ e1)).count (some id)) :
    PrefixMatched (h ++ ext) := by
  intro h1 h2 id name content d heq
  rcases List.append_eq_append_iff.1 heq with ⟨a', ha1, ha2⟩ | ⟨c', hc1, hc2⟩
  · subst ha1
    exact hext a' h2 id name content d ha2
  · cases c' with
    | nil =>
      have hseed : h = h1 := by simpa using hc1
      subst hseed
      have hx := hext [] h2 id name content d
        (by rw [List.nil_append]; exact hc2.symm)
      simpa using hx
    | cons x c'' =>
      rw [List.cons_append] at hc2
      obtain ⟨hx, hrest⟩ := List.cons.inj hc2
      subst hx
      subst hc1
      exact hm h1 c'' id name content d rfl

theorem block_matched (env : Env) (a : Agent) (h : List Message)
    (content0 : String) (tcs : List ToolCall)
    (hids : ∀ tc ∈ tcs, tc.id.isSome = true) :
    ∀ (e1 e2 : List Message) (id name content : String) (d : Option Dict),
      (Message.assistant content0 (some tcs)
          :: tcs.map (fun tc => (execute_tool env a tc).1))
        = e1 ++ .tool id name content d :: e2 →
      0 < (assistantCallIds (h ++ e1)).count (some id) := by
  intro e1 e2 id name content d heq
  cases e1 with
  | nil =>
    rw [List.nil_append] at heq
    exact absurd (List.cons.inj heq).1 (by intro hcontra; cases hcontra)
  | cons x e1' =>
    rw [List.cons_append] at heq
    obtain ⟨hx, hrest⟩ := List.cons.inj heq
    have hmem : Message.tool id name content d
        ∈ tcs.map (fun tc => (execute_tool env a tc).1) := by
      rw [hrest]
      exact List.mem_append.2 (Or.inr (List.mem_cons_self _ _))
    rcases List.mem_map.1 hmem with ⟨tc, htc, hexec⟩
    obtain ⟨o, ho⟩ := execute_tool_components env a tc
    have h1 : (execute_tool env a tc).1
        = Message.tool (tc.id.getD "") tc.function.name o.response o.data := by
      rw [ho]
    rw [h1] at hexec
    have hid : tc.id.getD "" = id := (Message.tool.inj hexec).1
    obtain ⟨s, hs⟩ := Option.isSome_iff_exists.1 (hids tc htc)
    have hids' : some id = tc.id := by
      rw [hs]
      rw [hs] at hid
      simp at hid
      rw [hid]
    rw [List.count_pos_iff, assistantCallIds_append]
    refine List.mem_append.2 (Or.inr ?_)
    rw [← hx]
    show some id ∈ assistantCallIds
      (Message.assistant content0 (some tcs) :: e1')
    rw [show assistantCallIds (Message.assistant content0 (some tcs) :: e1')
        = tcs.map (fun tc => tc.id) ++ assistantCallIds e1' from rfl]
    refine List.mem_append.2 (Or.inl ?_)
    rw [hids']
    exact List.mem_map.2 ⟨tc, htc, rfl⟩

theorem runStep_fail_persisted (env : Env) (a : Agent) (turn : ModelTurn)
    (e : String) (h : turn.fail = some e) :
    persistedMsgs (runStep env a turn).1 = [] := by
  rw [runStep_fail_acts env a turn e h, persistedMsgs_cons_callLLM,
    persistedMsgs_content _ (processChunks_acts_shape turn.chunks)]

theorem runStep_break_persisted (env : Env) (a : Agent) (turn : ModelTurn)
    (h : turn.fail = none)
    (h2 : (processChunks turn.chunks).1.tool_calls = []) :
    persistedMsgs (runStep env a turn).1
      = [.assistant (String.join (processChunks turn.chunks).1.full_content)
          none] := by
  rw [runStep_break_acts env a turn h h2, List.cons_append,
    persistedMsgs_cons_callLLM, persistedMsgs_append,
    persistedMsgs_content _ (processChunks_acts_shape turn.chunks),
    List.nil_append]
  rfl

theorem loopAux_messages (env : Env) (tp : Nat → ModelTurn) :
    ∀ (fuel i : Nat) (b : Agent),
      (loopAux env tp fuel i b).2.messages
        = b.messages ++ persistedMsgs (loopAux env tp fuel i b).1 := by
  intro fuel
  induction fuel with
  | zero =>
    intro i b
    rw [loopAux_zero]
    show b.messages = b.messages ++ persistedMsgs [Action.emit .done]
    rw [show persistedMsgs [Action.emit .done] = [] from rfl, List.append_nil]
  | succ fuel ih =>
    intro i b
    cases hexit : (runStep env b (tp i)).2 with
    | stepRaised e =>
      rw [loopAux_succ_raised env tp fuel i b e hexit, persistedMsgs_append]
      rw [show persistedMsgs [Action.emit (.error e)] = [] from rfl,
        List.append_nil]
    | stepBroke =>
      rw [loopAux_succ_broke env tp fuel i b hexit, persistedMsgs_append]
      rw [show persistedMsgs [Action.emit .done] = [] from rfl,
        List.append_nil]
    | stepNext =>
      rw [loopAux_succ_next env tp fuel i b hexit, persistedMsgs_append]
      rw [ih (i + 1)
        { b with messages := b.messages ++ persistedMsgs (runStep env b (tp i)).1 }]
      rw [List.append_assoc]

theorem loopAux_prefix_matched (env : Env) (tp : Nat → ModelTurn)
    (hids : ∀ j, ∀ tc ∈ (processChunks (tp j).chunks).1.tool_calls,
      tc.id.isSome = true) :
    ∀ (fuel i : Nat) (b : Agent),
      PrefixMatched b.messages →
      PrefixMatched (loopAux env tp fuel i b).2.messages := by
  intro fuel
  induction fuel with
  | zero =>
    intro i b hb
    rw [loopAux_zero]
    exact hb
  | succ fuel ih =>
    intro i b hb
    cases hexit : (runStep env b (tp i)).2 with
    | stepRaised e =>
      rw [loopAux_succ_raised env tp fuel i b e hexit]
      show PrefixMatched (b.messages ++ persistedMsgs (runStep env b (tp i)).1)
      cases hf : (tp i).fail with
      | none =>
        exact absurd hexit (by
          by_cases h2 : (processChunks (tp i).chunks).1.tool_calls = []
          · rw [runStep_break_exit env b (tp i) hf h2]
            intro hcontra; cases hcontra
          · rw [runStep_tools_exit env b (tp i) hf h2]
            intro hcontra; cases hcontra)
      | some ex =>
        rw [runStep_fail_persisted env b (tp i) ex hf, List.append_nil]
        exact hb
    | stepBroke =>
      rw [loopAux_succ_broke env tp fuel i b hexit]
      show PrefixMatched (b.messages ++ persistedMsgs (runStep env b (tp i)).1)
      cases hf : (tp i).fail with
      | some ex =>
        exact absurd hexit (by
          rw [runStep_fail_exit env b (tp i) ex hf]
          intro hcontra; cases hcontra)
      | none =>
        by_cases h2 : (processChunks (tp i).chunks).1.tool_calls = []
        · rw [runStep_break_persisted env b (tp i) hf h2]
          refine prefixMatched_append _ _ hb ?_
          intro e1 e2 id name content d heq
          exfalso
          cases e1 with
          | nil =>
            rw [List.nil_append] at heq
            exact absurd (List.cons.inj heq).1 (by intro hc; cases hc)
          | cons x e1' =>
            rw [List.cons_append] at heq
            have h3 := (List.cons.inj heq).2
            obtain ⟨-, habs⟩ := List.append_eq_nil.1 h3.symm
            exact absurd habs (List.cons_ne_nil _ _)
        · exact absurd hexit (by
            rw [runStep_tools_exit env b (tp i) hf h2]
            intro hcontra; cases hcontra)
    | stepNext =>
      rw [loopAux_succ_next env tp fuel i b hexit]
      cases hf : (tp i).fail with
      | some ex =>
        exact absurd hexit (by
          rw [runStep_fail_exit env b (tp i) ex hf]
          intro hcontra; cases hcontra)
      | none =>
        by_cases h2 : (processChunks (tp i).chunks).1.tool_calls = []
        · exact absurd hexit (by
            rw [runStep_break_exit env b (tp i) hf h2]
            intro hcontra; cases hcontra)
        · refine ih (i + 1) _ ?_
          show PrefixMatched
            (b.messages ++ persistedMsgs (runStep env b (tp i)).1)
          obtain ⟨-, -, hp, -⟩ := runStep_tools_counts env b (tp i) hf h2
          rw [hp]
          exact prefixMatched_append _ _ hb
            (block_matched env b b.messages _ _ (hids i))

/- ===========================================================================
Claim theorems
=========================================================================== -/

/-- Claim C2: for every message history, the LLM-visible projection carries
no `data` key on any tool message, keeps every other field of tool messages
(id, name, content) and every non-tool message (including assistant
`tool_calls`) unchanged, and preserves the history's length and order. -/
theorem messages_for_llm_projection :
    ∀ (msgs : List Message),
      (messages_for_llm msgs).length = msgs.length
      ∧ (∀ m ∈ messages_for_llm msgs, isToolMsg m = true → toolMsgData m = none)
      ∧ (∀ (i : Nat) (id name content : String) (d : Option Dict),
          msgs[i]? = some (.tool id name content d) →
          (messages_for_llm msgs)[i]? = some (.tool id name content none))
      ∧ (∀ (i : Nat) (m : Message),
          msgs[i]? = some m → isToolMsg m = false →
          (messages_for_llm msgs)[i]? = some m) := by
  intro msgs
  refine ⟨List.length_map msgs _, ?_, ?_, ?_⟩
  · intro m hm htool
    rcases List.mem_map.1 hm with ⟨x, _, rfl⟩
    cases x with
    | tool id n c d => cases d <;> rfl
    | system c => simp [isToolMsg] at htool
    | user c => simp [isToolMsg] at htool
    | assistant c t => simp [isToolMsg] at htool
  · intro i id name content d hi
    show (List.map _ msgs)[i]? = _
    rw [List.getElem?_map _ msgs i, hi]
    cases d <;> rfl
  · intro i m hi hm
    show (List.map _ msgs)[i]? = _
    rw [List.getElem?_map _ msgs i, hi]
    cases m with
    | tool _ _ _ _ => simp [isToolMsg] at hm
    | system c => rfl
    | user c => rfl
    | assistant c t => rfl

theorem messages_for_llm_projection_witness :
    (messages_for_llm
        [Message.user "hi",
         Message.tool "t1" "T" "ok" (some [("k", Value.vStr "v")]),
         Message.assistant "x" none])[1]?
      = some (Message.tool "t1" "T" "ok" none)
    ∧ (messages_for_llm
        [Message.user "hi",
         Message.tool "t1" "T" "ok" (some [("k", Value.vStr "v")]),
         Message.assistant "x" none])[0]?
      = some (Message.user "hi") :=
  ⟨(messages_for_llm_projection _).2.2.1 1 "t1" "T" "ok"
      (some [("k", Value.vStr "v")]) rfl,
   (messages_for_llm_projection _).2.2.2 0 (Message.user "hi") rfl rfl⟩

/-- Claim C3: tool resolution failure (unknown name), argument failure
(malformed JSON) and execution failure (constructor or body raises) never
escape `execute_tool`: each produces a normal tool message whose content is
an explanatory error string — containing an unknown-tool indicator in the
unresolved-name case — and the turn still processes every tool call and
falls through to the next model turn. -/
theorem tool_failures_recovered :
    ∀ (env : Env) (a : Agent) (tc : ToolCall),
      (a.toolsLookup tc.function.name = none →
        (execute_tool env a tc).1
          = .tool (tc.id.getD "") tc.function.name
              ("Error: " ++ ("Unknown tool: " ++ tc.function.name)) none
        ∧ ∃ p q, toolMsgContent (execute_tool env a tc).1
              = p ++ "Unknown tool" ++ q)
      ∧ (∀ ts e, a.toolsLookup tc.function.name = some ts →
          env.parseJson tc.function.arguments = .error e →
          (execute_tool env a tc).1
            = .tool (tc.id.getD "") tc.function.name ("Error: " ++ e) none)
      ∧ (∀ ts v e, a.toolsLookup tc.function.name = some ts →
          env.parseJson tc.function.arguments = .ok v →
          ts.run v = .raises e →
          (execute_tool env a tc).1
            = .tool (tc.id.getD "") tc.function.name ("Error: " ++ e) none)
      ∧ (∀ turn : ModelTurn, turn.fail = none →
          (processChunks turn.chunks).1.tool_calls ≠ [] →
          (runStep env a turn).2 = .stepNext
          ∧ (emittedEvents (runStep env a turn).1).countP isToolResponseEv
              = (processChunks turn.chunks).1.tool_calls.length) := by
  intro env a tc
  refine ⟨?_, ?_, ?_, ?_⟩
  · intro h
    have htry := execute_tool_try_unknown env a tc h
    constructor
    · rw [execute_tool_of_error env a tc _ htry]
    · refine ⟨"Error: ", ": " ++ tc.function.name, ?_⟩
      rw [execute_tool_content_error env a tc _ htry]
      calc "Error: " ++ ("Unknown tool: " ++ tc.function.name)
          = ("Error: " ++ "Unknown tool: ") ++ tc.function.name :=
            (String.append_assoc _ _ _).symm
        _ = (("Error: " ++ "Unknown tool") ++ ": ") ++ tc.function.name := rfl
        _ = ("Error: " ++ "Unknown tool") ++ (": " ++ tc.function.name) :=
            String.append_assoc _ _ _
  · intro ts e h1 h2
    rw [execute_tool_of_error env a tc e
      (execute_tool_try_parse_error env a tc ts e h1 h2)]
  · intro ts v e h1 h2 h3
    rw [execute_tool_of_error env a tc e
      (execute_tool_try_raises env a tc ts v e h1 h2 h3)]
  · intro turn hf htc
    obtain ⟨_, hresp, _, hexit⟩ := runStep_tools_counts env a turn hf htc
    exact ⟨hexit, hresp⟩

theorem tool_failures_recovered_witness :
    (execute_tool envParseFail agentNoTools tcUnknown).1
      = .tool "i1" "Nope" ("Error: " ++ ("Unknown tool: " ++ "Nope")) none
    ∧ (runStep envParseFail agentNoTools turnOneCall).2 = .stepNext :=
  ⟨((tool_failures_recovered envParseFail agentNoTools tcUnknown).1 rfl).1,
   ((tool_failures_recovered envParseFail agentNoTools tcUnknown).2.2.2
      turnOneCall rfl (by decide)).1⟩

/-- Claim C4: a turn that accumulated N tool calls (N ≥ 1) emits exactly N
`tool_call` and N `tool_response` events, strictly interleaved in call order
(the step's trace is the request, the content deltas, the persisted
assistant message, then per call: `tool_call` event, persisted tool message,
`tool_response` event); exactly N tool messages are persisted, each carrying
the same coalesced id as its call's events; the assistant message is
persisted before any `tool_call` event, and each tool message before its
`tool_response` event. -/
theorem tool_turn_event_interleaving :
    ∀ (env : Env) (a : Agent) (turn : ModelTurn) (tcs : List ToolCall),
      turn.fail = none →
      (processChunks turn.chunks).1.tool_calls = tcs →
      tcs ≠ [] →
      (emittedEvents (runStep env a turn).1).countP isToolCallEv = tcs.length
      ∧ (emittedEvents (runStep env a turn).1).countP isToolResponseEv
          = tcs.length
      ∧ persistedMsgs (runStep env a turn).1
          = .assistant (String.join (processChunks turn.chunks).1.full_content)
              (some tcs)
            :: tcs.map (fun tc => (execute_tool env a tc).1)
      ∧ (∀ tc ∈ tcs, ∃ o : ToolOutput,
          execute_tool env a tc
            = (.tool (tc.id.getD "") tc.function.name o.response o.data,
               .tool_response (tc.id.getD "") tc.function.name o.data))
      ∧ (runStep env a turn).1
          = Action.callLLM (mkRequest a) :: (processChunks turn.chunks).2
              ++ Action.persist
                  (.assistant
                    (String.join (processChunks turn.chunks).1.full_content)
                    (some tcs))
                :: tcs.flatMap (fun tc =>
                    [.emit (toolCallEvent env tc),
                     .persist (execute_tool env a tc).1,
                     .emit (execute_tool env a tc).2])
      ∧ (∀ x ∈ (processChunks turn.chunks).2,
          ∃ s, x = Action.emit (.content_delta s))
      ∧ (runStep env a turn).2 = .stepNext := by
  intro env a turn tcs hf htcs hne
  subst htcs
  obtain ⟨hc1, hc2, hp, hexit⟩ := runStep_tools_counts env a turn hf hne
  refine ⟨hc1, hc2, hp, ?_, ?_, processChunks_acts_shape turn.chunks, hexit⟩
  · intro tc _
    exact execute_tool_components env a tc
  · rw [runStep_tools_acts env a turn hf hne]
    rfl

theorem tool_turn_event_interleaving_witness :
    (emittedEvents (runStep envParseFail agentTools turnTwoCalls).1).countP
        isToolCallEv = 2
    ∧ (emittedEvents (runStep envParseFail agentTools turnTwoCalls).1).countP
        isToolResponseEv = 2 :=
  ⟨(tool_turn_event_interleaving envParseFail agentTools turnTwoCalls
      [{ id := some "x", function := { name := "Echo", arguments := "1" } },
       { id := some "y", function := { name := "Nope", arguments := "2" } }]
      rfl rfl (by decide)).1,
   (tool_turn_event_interleaving envParseFail agentTools turnTwoCalls
      [{ id := some "x", function := { name := "Echo", arguments := "1" } },
       { id := some "y", function := { name := "Nope", arguments := "2" } }]
      rfl rfl (by decide)).2.1⟩

/-- Claim C5: every run emits exactly one terminal event and it is the last
event emitted: when no transport exception occurs the terminal event is the
single `done` (whether the loop exits via a tool-free turn or by exhausting
`max_steps`); and when an exception not already converted to a tool-level
result is raised on a turn the loop reaches, the run ends with a single
`error` event carrying that exception instead of `done` — no `done` event
occurs anywhere in that run. -/
theorem terminal_event_exactly_once_and_last :
    ∀ (env : Env) (tp : Nat → ModelTurn) (a : Agent) (initial : List Message),
      (∃ evs t,
        emittedEvents (stream_run env tp a initial).1 = evs ++ [t]
        ∧ isTerminal t = true
        ∧ ∀ e ∈ evs, isTerminal e = false)
      ∧ ((∀ i, i < a.max_steps → (tp i).fail = none) →
          ∃ evs,
            emittedEvents (stream_run env tp a initial).1 = evs ++ [.done]
            ∧ ∀ e ∈ evs, isTerminal e = false)
      ∧ (∀ (k : Nat) (e : String),
          k < a.max_steps →
          (∀ j, j < k →
            (tp j).fail = none
            ∧ (processChunks (tp j).chunks).1.tool_calls ≠ []) →
          (tp k).fail = some e →
          ∃ evs,
            emittedEvents (stream_run env tp a initial).1 = evs ++ [.error e]
            ∧ ∀ x ∈ evs, isTerminal x = false) := by
  intro env tp a initial
  refine ⟨?_, ?_, ?_⟩
  · obtain ⟨evs, t, h1, h2, h3⟩ :=
      loopAux_terminal env tp a.max_steps 0
        { a with messages := a.messages ++ initial }
    refine ⟨evs, t, ?_, h2, h3⟩
    rw [stream_run_acts, emittedEvents_append, emittedEvents_map_persist,
      List.nil_append, h1]
  · intro hfail
    obtain ⟨evs, h1, h3⟩ :=
      loopAux_done env tp a.max_steps 0
        { a with messages := a.messages ++ initial }
        (fun j _ hj2 => hfail j (by omega))
    refine ⟨evs, ?_, h3⟩
    rw [stream_run_acts, emittedEvents_append, emittedEvents_map_persist,
      List.nil_append, h1]
  · intro k e hk hprev hfk
    obtain ⟨evs, h1, h3⟩ :=
      loopAux_error env tp a.max_steps 0
        { a with messages := a.messages ++ initial }
        k e (Nat.zero_le k) (by omega)
        (fun j _ hj2 => hprev j hj2) hfk
    refine ⟨evs, ?_, h3⟩
    rw [stream_run_acts, emittedEvents_append, emittedEvents_map_persist,
      List.nil_append, h1]

theorem terminal_event_exactly_once_and_last_witness :
    (∃ evs,
      emittedEvents (stream_run envParseFail tpNoCalls agentNoTools []).1
        = evs ++ [.done]
      ∧ ∀ e ∈ evs, isTerminal e = false)
    ∧ (∃ evs,
        emittedEvents (stream_run envParseFail tpFail agentNoTools []).1
          = evs ++ [.error "boom"]
        ∧ ∀ x ∈ evs, isTerminal x = false) :=
  ⟨(terminal_event_exactly_once_and_last envParseFail tpNoCalls agentNoTools
      []).2.1 (fun _ _ => rfl),
   (terminal_event_exactly_once_and_last envParseFail tpFail agentNoTools
      []).2.2 0 "boom" (by decide)
      (fun j hj => absurd hj (Nat.not_lt_zero j)) rfl⟩

/-- Claim C6 counterexample: with `max_steps = 1` and a transport whose
every turn requests a tool call, the loop exits by exhausting the budget and
still emits a `done` event (the code yields `done` after the `for` loop
regardless of how it ended), so it does not end silently. -/
theorem silent_exhaustion_counterexample :
    emittedEvents (stream_run envParseFail tpOneCall agentNoTools []).1
      = [.content_delta "Hello",
         .tool_call "i1" "Nope" (Value.vDict []),
         .tool_response "i1" "Nope" none,
         .done]
    ∧ (emittedEvents
        (stream_run envParseFail tpOneCall agentNoTools []).1).countP isDoneEv
        = 1
    ∧ (emittedEvents
        (stream_run envParseFail tpOneCall agentNoTools []).1).countP isErrorEv
        = 0 :=
  ⟨rfl, rfl, rfl⟩

/-- Claim C6 amended: when the step bound is exhausted without a tool-free
assistant turn (every scripted turn requests tool calls and none fails), the
loop does not end silently: after the final turn's tool executions it emits
exactly one terminal event, a `done` (and no `error`), having issued exactly
`max_steps` model requests. -/
theorem step_budget_exhaustion_emits_done :
    ∀ (env : Env) (tp : Nat → ModelTurn) (a : Agent) (initial : List Message),
      (∀ i, i < a.max_steps →
        (tp i).fail = none
        ∧ (processChunks (tp i).chunks).1.tool_calls ≠ []) →
      (∃ evs,
        emittedEvents (stream_run env tp a initial).1 = evs ++ [.done]
        ∧ ∀ e ∈ evs, isTerminal e = false)
      ∧ (stream_run env tp a initial).1.countP isCallLLM = a.max_steps := by
  intro env tp a initial hcond
  obtain ⟨⟨evs, h1, h3⟩, hcount⟩ :=
    loopAux_exhaust env tp a.max_steps 0
      { a with messages := a.messages ++ initial }
      (fun j _ hj2 => hcond j (by omega))
  constructor
  · refine ⟨evs, ?_, h3⟩
    rw [stream_run_acts, emittedEvents_append, emittedEvents_map_persist,
      List.nil_append, h1]
  · rw [stream_run_acts, List.countP_append, hcount,
      countP_eq_zero_of_all isCallLLM (initial.map .persist) ?_, Nat.zero_add]
    intro x hx
    rcases List.mem_map.1 hx with ⟨m, _, rfl⟩
    rfl

theorem step_budget_exhaustion_emits_done_witness :
    (∃ evs,
      emittedEvents (stream_run envParseFail tpOneCall agentNoTools []).1
        = evs ++ [.done]
      ∧ ∀ e ∈ evs, isTerminal e = false)
    ∧ (stream_run envParseFail tpOneCall agentNoTools []).1.countP isCallLLM
        = agentNoTools.max_steps :=
  step_budget_exhaustion_emits_done envParseFail tpOneCall agentNoTools []
    (fun _ _ =>
      ⟨rfl, show (processChunks turnOneCall.chunks).1.tool_calls ≠ [] by decide⟩)

/-- Claim C7: when an accumulated call's arguments string is not valid JSON
(the empty string included), the emitted `tool_call` event carries the empty
object as `args`, event emission does not raise — the turn still processes
every accumulated call and falls through to the next model turn — and
execution still attempts the real parse, so the tool message's content
begins with an error indicator. -/
theorem malformed_args_empty_object :
    ∀ (env : Env) (a : Agent) (tc : ToolCall) (e : String),
      env.parseJson tc.function.arguments = .error e →
      toolCallEvent env tc
        = .tool_call (tc.id.getD "") tc.function.name (Value.vDict [])
      ∧ (∃ rest, toolMsgContent (execute_tool env a tc).1 = "Error: " ++ rest)
      ∧ (∀ turn : ModelTurn, turn.fail = none →
          (processChunks turn.chunks).1.tool_calls ≠ [] →
          (runStep env a turn).2 = .stepNext
          ∧ (emittedEvents (runStep env a turn).1).countP isToolCallEv
              = (processChunks turn.chunks).1.tool_calls.length) := by
  intro env a tc e h
  refine ⟨?_, ?_, ?_⟩
  · simp only [toolCallEvent, h]
  · cases hl : a.toolsLookup tc.function.name with
    | none =>
      exact ⟨"Unknown tool: " ++ tc.function.name,
        execute_tool_content_error env a tc _
          (execute_tool_try_unknown env a tc hl)⟩
    | some ts =>
      exact ⟨e, execute_tool_content_error env a tc e
        (execute_tool_try_parse_error env a tc ts e hl h)⟩
  · intro turn hf htc
    obtain ⟨hcall, _, _, hexit⟩ := runStep_tools_counts env a turn hf htc
    exact ⟨hexit, hcall⟩

theorem malformed_args_empty_object_witness :
    toolCallEvent envParseFail tcUnknown
      = .tool_call "i1" "Nope" (Value.vDict [])
    ∧ ∃ rest,
        toolMsgContent (execute_tool envParseFail agentNoTools tcUnknown).1
          = "Error: " ++ rest :=
  ⟨(malformed_args_empty_object envParseFail agentNoTools tcUnknown
      "Expecting value: line 1 column 1 (char 0)" rfl).1,
   (malformed_args_empty_object envParseFail agentNoTools tcUnknown
      "Expecting value: line 1 column 1 (char 0)" rfl).2.1⟩

/-- Claim C8: a successful tool invocation's return value is normalized to a
`ToolOutput`: `None` becomes response "Success", a bare string becomes the
response, a `ToolOutput` is kept unchanged, and any other value is passed as
keyword fields to the `ToolOutput` constructor, with constructor-rejected
shapes captured as an error-string result instead of propagating. -/
theorem tool_result_normalization :
    ∀ (env : Env) (a : Agent) (tc : ToolCall) (ts : ToolSpec) (v : Value),
      a.toolsLookup tc.function.name = some ts →
      env.parseJson tc.function.arguments = .ok v →
      (ts.run v = .returns .retNone →
        (execute_tool env a tc).1
          = .tool (tc.id.getD "") tc.function.name "Success" none)
      ∧ (∀ s, ts.run v = .returns (.retStr s) →
          (execute_tool env a tc).1
            = .tool (tc.id.getD "") tc.function.name s none)
      ∧ (∀ o, ts.run v = .returns (.retOutput o) →
          (execute_tool env a tc).1
            = .tool (tc.id.getD "") tc.function.name o.response o.data)
      ∧ (∀ w o, ts.run v = .returns (.retOther w) →
          toolOutputOfValue w = .ok o →
          (execute_tool env a tc).1
            = .tool (tc.id.getD "") tc.function.name o.response o.data)
      ∧ (∀ w e, ts.run v = .returns (.retOther w) →
          toolOutputOfValue w = .error e →
          (execute_tool env a tc).1
            = .tool (tc.id.getD "") tc.function.name ("Error: " ++ e) none) := by
  intro env a tc ts v h1 h2
  refine ⟨?_, ?_, ?_, ?_, ?_⟩
  · intro h3
    rw [execute_tool_of_ok env a tc _
      ((execute_tool_try_returns env a tc ts v _ h1 h2 h3).trans rfl)]
  · intro s h3
    rw [execute_tool_of_ok env a tc _
      ((execute_tool_try_returns env a tc ts v _ h1 h2 h3).trans rfl)]
  · intro o h3
    rw [execute_tool_of_ok env a tc o
      ((execute_tool_try_returns env a tc ts v _ h1 h2 h3).trans rfl)]
  · intro w o h3 hw
    rw [execute_tool_of_ok env a tc o
      ((execute_tool_try_returns env a tc ts v _ h1 h2 h3).trans hw)]
  · intro w e h3 hw
    rw [execute_tool_of_error env a tc e
      ((execute_tool_try_returns env a tc ts v _ h1 h2 h3).trans hw)]

theorem tool_result_normalization_witness :
    (execute_tool envParseOk agentTools tcEcho).1
      = .tool "i2" "Echo" "hi" none
    ∧ (execute_tool envParseOk agentTools
        { id := some "i3", function := { name := "Quiet", arguments := "" } }).1
      = .tool "i3" "Quiet" "Success" none
    ∧ (execute_tool envParseOk agentTools
        { id := some "i4", function := { name := "DictRet", arguments := "" } }).1
      = .tool "i4" "DictRet" "r" none :=
  ⟨(tool_result_normalization envParseOk agentTools tcEcho toolEcho
      (Value.vDict []) rfl rfl).2.1 "hi" rfl,
   (tool_result_normalization envParseOk agentTools
      { id := some "i3", function := { name := "Quiet", arguments := "" } }
      toolQuiet (Value.vDict []) rfl rfl).1 rfl,
   (tool_result_normalization envParseOk agentTools
      { id := some "i4", function := { name := "DictRet", arguments := "" } }
      toolDictRet (Value.vDict []) rfl rfl).2.2.2.1
      (.vDict [("response", .vStr "r")]) { response := "r", data := none }
      rfl rfl⟩

/-- Claim C10: an agent constructed with an empty tool list (or no tools to
register at all) has `tool_schemas = None`, not an empty list, and — absent
a `tools` override smuggled through `completion_args` — that `None` is what
the loop passes as the `tools` field of every completion request; for a
non-empty tool list, `tool_schemas` is the list of the tools' schemas in
registration order. -/
theorem tool_schemas_empty_is_none :
    ∀ (a : Agent),
      (a.tool_classes = [] → a.tool_schemas = none)
      ∧ (a.tool_classes ≠ [] →
          a.tool_schemas = some (a.tool_classes.map get_schema))
      ∧ (a.toolsOverride = none →
          ∀ (env : Env) (tp : Nat → ModelTurn) (initial : List Message)
            (req : Request),
            Action.callLLM req ∈ (stream_run env tp a initial).1 →
            req.tools = a.tool_schemas) := by
  intro a
  refine ⟨?_, ?_, ?_⟩
  · intro h
    simp only [Agent.tool_schemas, h]
  · intro h
    cases hl : a.tool_classes with
    | nil => exact absurd hl h
    | cons t ts => simp only [Agent.tool_schemas, hl]
  · intro hov env tp initial req hmem
    rw [stream_run_acts] at hmem
    rcases List.mem_append.1 hmem with hmem | hmem
    · rcases List.mem_map.1 hmem with ⟨m, _, heq⟩
      exact Action.noConfusion heq
    · have h2 : req.tools = a.toolsOverride.getD a.tool_schemas :=
        loopAux_callLLM_tools env tp a.max_steps 0
          { a with messages := a.messages ++ initial } req hmem
      rw [hov] at h2
      exact h2

theorem tool_schemas_empty_is_none_witness :
    agentNoTools.tool_schemas = none
    ∧ (mkRequest agentNoTools).tools = agentNoTools.tool_schemas :=
  ⟨(tool_schemas_empty_is_none agentNoTools).1 rfl,
   (tool_schemas_empty_is_none agentNoTools).2.2 rfl envParseFail tpNoCalls []
      (mkRequest agentNoTools)
      (by
        rw [show (stream_run envParseFail tpNoCalls agentNoTools []).1
            = Action.callLLM (mkRequest agentNoTools)
              :: [Action.emit (.content_delta "Hi"),
                  Action.persist (.assistant "Hi" none),
                  Action.emit .done] from rfl]
        exact List.mem_cons_self _ _)⟩

/-- Claim C9 counterexample: when the model supplies the same id for two
tool calls of one turn, the first persisted tool message's `tool_call_id`
matches two tool-call ids of the prior assistant message, not exactly one
(the code never enforces uniqueness of the streamed ids). -/
theorem tool_id_match_counterexample :
    (stream_run envParseFail tpDupIds agentNoTools []).2.messages
      = [ .assistant ""
            (some [ { id := some "x",
                      function := { name := "Echo", arguments := "1" } },
                    { id := some "x",
                      function := { name := "Nope", arguments := "2" } } ]),
          .tool "x" "Echo" ("Error: " ++ ("Unknown tool: " ++ "Echo")) none,
          .tool "x" "Nope" ("Error: " ++ ("Unknown tool: " ++ "Nope")) none ]
    ∧ (assistantCallIds
        [ Message.assistant ""
            (some [ { id := some "x",
                      function := { name := "Echo", arguments := "1" } },
                    { id := some "x",
                      function := { name := "Nope", arguments := "2" } } ]) ]).count
        (some "x") = 2 :=
  ⟨rfl, rfl⟩

/-- Claim C9 (amended): the history is append-only — the final history of a
run, and of every loop suffix, is the starting history followed exactly by
the messages persisted, in order, with nothing reordered or mutated — and,
provided the transport supplies non-null tool-call ids, the starting history
contains no tool message, and the run's assistant-call ids are pairwise
distinct, every tool message's `tool_call_id` matches exactly one tool-call
id of a prior assistant message in the same history. -/
theorem history_append_only_and_ids_matched :
    ∀ (env : Env) (tp : Nat → ModelTurn) (a : Agent) (initial : List Message),
      ((stream_run env tp a initial).2.messages
          = (a.messages ++ initial)
            ++ persistedMsgs (loopAux env tp a.max_steps 0
                { a with messages := a.messages ++ initial }).1)
      ∧ (∀ (fuel i : Nat) (b : Agent),
          (loopAux env tp fuel i b).2.messages
            = b.messages ++ persistedMsgs (loopAux env tp fuel i b).1)
      ∧ ((∀ j, ∀ tc ∈ (processChunks (tp j).chunks).1.tool_calls,
            tc.id.isSome = true) →
         (∀ m ∈ a.messages ++ initial, isToolMsg m = false) →
         (assistantCallIds (stream_run env tp a initial).2.messages).Nodup →
         ∀ (h1 h2 : List Message) (id name content : String) (d : Option Dict),
           (stream_run env tp a initial).2.messages
             = h1 ++ .tool id name content d :: h2 →
           (assistantCallIds h1).count (some id) = 1) := by
  intro env tp a initial
  refine ⟨?_, loopAux_messages env tp, ?_⟩
  · rw [stream_run_agent]
    exact loopAux_messages env tp a.max_steps 0 _
  · intro hid hseed hnodup h1 h2 id name content d heq
    have hge : 0 < (assistantCallIds h1).count (some id) := by
      have hpm : PrefixMatched (stream_run env tp a initial).2.messages := by
        rw [stream_run_agent]
        exact loopAux_prefix_matched env tp hid a.max_steps 0 _
          (prefixMatched_of_noTool _ hseed)
      exact hpm h1 h2 id name content d heq
    have hle : (assistantCallIds h1).count (some id) ≤ 1 := by
      have hsub : List.Sublist (assistantCallIds h1)
          (assistantCallIds (stream_run env tp a initial).2.messages) := by
        rw [heq, assistantCallIds_append]
        exact List.sublist_append_left _ _
      exact le_trans (hsub.count_le (some id))
        (count_le_one_of_nodup _ (some id) hnodup)
    omega

theorem history_append_only_and_ids_matched_witness :
    (assistantCallIds
      [Message.assistant "Hello"
        (some [{ id := some "i1",
                 function := { name := "Nope", arguments := "1" } }])]).count
      (some "i1") = 1 :=
  (history_append_only_and_ids_matched envParseFail tpOneCall agentNoTools
      []).2.2
    (fun _ =>
      show ∀ tc ∈ (processChunks turnOneCall.chunks).1.tool_calls,
          tc.id.isSome = true by decide)
    (by intro m hm; simp [agentNoTools] at hm)
    (by decide)
    [Message.assistant "Hello"
      (some [{ id := some "i1",
               function := { name := "Nope", arguments := "1" } }])]
    [] "i1" "Nope" ("Error: " ++ ("Unknown tool: " ++ "Nope")) none rfl

end AgentBase
